/-
Verification of the conduit homeserver's session module and of its room
event-graph / state-resolution engine design.

The session part (login, logout, device/token issuance) is embedded
directly from src/client_server/session.rs.  External collaborators of
that module (username parsing, argon2 verification, JWT decoding, the
password hasher and the OS randomness source) are passed in as explicit
parameters of the embedding, so every function here is pure and
executable.

The event-graph engine (event store, graph index, auth checker, state
resolver, ingestion pipeline) is not part of the source excerpt; it is
modelled from the design document, as indicated by the doc comments of
the corresponding definitions.
-/
import Mathlib

namespace Conduit

namespace Session

/-- Modelled from the spec: length constant of the `client_server` module,
which is outside the source excerpt (`super::DEVICE_ID_LENGTH`). -/
def DEVICE_ID_LENGTH : Nat := 10

/-- Modelled from the spec: length constant of the `client_server` module,
which is outside the source excerpt (`super::TOKEN_LENGTH`). -/
def TOKEN_LENGTH : Nat := 256

/-- JWT claims structure from session.rs (`struct Claims`). -/
structure Claims where
  sub : String
  exp : Nat

/-- The OS randomness source (`rand::thread_rng`), embedded as an infinite
character stream together with the position of the next unread character. -/
structure Rng where
  stream : Nat → Char
  pos : Nat

/-- `utils::random_string(length)`: draws `length` characters from the
randomness source (the `utils` module is outside the source excerpt; the
one fact the source relies on is that the result has the requested
length). -/
def random_string (length : Nat) (r : Rng) : String × Rng :=
  (String.mk ((List.range length).map (fun i => r.stream (r.pos + i))),
   ⟨r.stream, r.pos + length⟩)

/-- `generate_random_password` from session.rs: 40 random characters. -/
def generate_random_password (r : Rng) : String × Rng :=
  random_string 40 r

/-- `ruma` login user identifier: either a Matrix id or some other kind
(third-party identifier, phone number). -/
inductive UserInfo where
  | matrixId (id : String)
  | otherKind
deriving DecidableEq

/-- `ruma` login method: password or token. -/
inductive LoginInfo where
  | password (password : String)
  | token (token : String)
deriving DecidableEq

/-- The login request body (`login::Request`). -/
structure LoginRequest where
  user : UserInfo
  login_info : LoginInfo
  device_id : Option String
  initial_device_display_name : Option String
deriving DecidableEq

/-- Error kinds used by the session routes. -/
inductive ErrorKind where
  | forbidden
  | invalidUsername
  | userDeactivated
deriving DecidableEq

/-- `Error::BadRequest(kind, message)`. -/
inductive Error where
  | badRequest (kind : ErrorKind) (message : String)
deriving DecidableEq

/-- A device record as registered by `db.users.create_device`. -/
structure Device where
  user_id : String
  device_id : String
  token : String
  display_name : Option String
deriving DecidableEq

/-- The user store: password hashes by user id, plus registered devices. -/
structure Users where
  passwordHashes : List (String × String)
  devices : List Device
deriving DecidableEq

/-- `db.users.password_hash(user_id)`. -/
def Users.password_hash (u : Users) (uid : String) : Option String :=
  (u.passwordHashes.find? (fun p => p.1 = uid)).map (fun p => p.2)

/-- `db.users.exists(user_id)`. -/
def Users.existsUser (u : Users) (uid : String) : Bool :=
  (u.password_hash uid).isSome

/-- `db.users.create(user_id, password)`: stores the hash of the given
password (the hash function is the external argon2 hasher). -/
def Users.create (u : Users) (hashFn : String → String) (uid pw : String) : Users :=
  { u with passwordHashes := (uid, hashFn pw) :: u.passwordHashes }

/-- `db.users.create_device(user_id, device_id, token, display_name)`. -/
def Users.create_device (u : Users) (uid did token : String)
    (displayName : Option String) : Users :=
  { u with devices := ⟨uid, did, token, displayName⟩ :: u.devices }

/-- One account-data entry, as written by `db.account_data.update`. -/
structure AccountDataEntry where
  user_id : String
  event_type : String
deriving DecidableEq

/-- The slice of the database the session routes touch. -/
structure Db where
  users : Users
  account_data : List AccountDataEntry
deriving DecidableEq

/-- External collaborators of `login_route`, passed in explicitly:
the server name, `UserId::parse_with_server_name`,
`argon2::verify_encoded` (`none` embeds an `Err` result),
`jsonwebtoken::decode` and the argon2 password hasher used by
`Users.create`. -/
structure LoginEnv where
  server_name : String
  parse_with_server_name : String → String → Option String
  verify_encoded : String → String → Option Bool
  jwt_decode : String → Option Claims
  calculate_hash : String → String

/-- `login::Response`. -/
structure LoginResponse where
  user_id : String
  access_token : String
  home_server : Option String
  device_id : String
deriving DecidableEq

/-- The shared tail of `login_route` (source lines 120-145): pick the
device id (the one in the request, or a fresh random one), generate a
fresh token, register the device, and build the response. -/
def finishLogin (env : LoginEnv) (db : Db) (r : Rng) (body : LoginRequest)
    (uid : String) : Db × Rng × Except Error LoginResponse :=
  let dr : String × Rng :=
    match body.device_id with
    | some d => (d, r)
    | none => random_string DEVICE_ID_LENGTH r
  let tr : String × Rng := random_string TOKEN_LENGTH dr.2
  let db1 : Db :=
    { db with users := db.users.create_device uid dr.1 tr.1
                         body.initial_device_display_name }
  (db1, tr.2, Except.ok ⟨uid, tr.1, some env.server_name, dr.1⟩)

/-- `login_route` from session.rs.  The database and the randomness
source are threaded explicitly; an error outcome carries the (unchanged)
database, embedding the early `return Err(..)` paths. -/
def login_route (env : LoginEnv) (db : Db) (r : Rng) (body : LoginRequest) :
    Db × Rng × Except Error LoginResponse :=
  match body.login_info with
  | LoginInfo.password pw =>
    match body.user with
    | UserInfo.otherKind =>
      (db, r, Except.error (Error.badRequest ErrorKind.forbidden "Bad login type."))
    | UserInfo.matrixId username =>
      match env.parse_with_server_name username env.server_name with
      | none =>
        (db, r, Except.error (Error.badRequest ErrorKind.invalidUsername
          "Username is invalid."))
      | some uid =>
        match db.users.password_hash uid with
        | none =>
          (db, r, Except.error (Error.badRequest ErrorKind.forbidden
            "Wrong username or password."))
        | some hash =>
          if hash = "" then
            (db, r, Except.error (Error.badRequest ErrorKind.userDeactivated
              "The user has been deactivated"))
          else if (env.verify_encoded hash pw).getD false then
            finishLogin env db r body uid
          else
            (db, r, Except.error (Error.badRequest ErrorKind.forbidden
              "Wrong username or password."))
  | LoginInfo.token tok =>
    match env.jwt_decode tok with
    | none =>
      (db, r, Except.error (Error.badRequest ErrorKind.invalidUsername
        "Token is invalid."))
    | some claims =>
      match env.parse_with_server_name claims.sub env.server_name with
      | none =>
        (db, r, Except.error (Error.badRequest ErrorKind.invalidUsername
          "Username is invalid."))
      | some uid =>
        if db.users.existsUser uid then
          finishLogin env db r body uid
        else
          let pr : String × Rng := generate_random_password r
          let db1 : Db :=
            { users := db.users.create env.calculate_hash uid pr.1,
              account_data := ⟨uid, "m.push_rules"⟩ :: db.account_data }
          finishLogin env db1 pr.2 body uid

end Session

/-
Witness inputs: a concrete environment, database, randomness source and
request bodies used to evaluate the session routes on closed inputs.
-/

namespace Session

/-- Concrete external environment for evaluation: localpart-only parsing,
an argon2 verifier accepting everything, no JWT decoding, identity hash. -/
def wEnv : LoginEnv :=
  ⟨"srv", fun u _ => some u, fun _ _ => some true, fun _ => none, id⟩

/-- Concrete external environment whose JWT decoder accepts the token
"jwt" with subject "bob". -/
def wEnvTok : LoginEnv :=
  ⟨"srv", fun u _ => some u, fun _ _ => some true,
   fun t => if t = "jwt" then some ⟨"bob", 0⟩ else none, id⟩

/-- Concrete database holding one user "alice" with password hash "h". -/
def wDb : Db := ⟨⟨[("alice", "h")], []⟩, []⟩

/-- Concrete randomness source: the constant stream of letters a. -/
def wRng : Rng := ⟨fun _ => 'a', 0⟩

/-- Concrete password-login request for "alice" with no device id. -/
def wBodyPw : LoginRequest := ⟨UserInfo.matrixId "alice", LoginInfo.password "pw", none, none⟩

/-- Concrete token-login request with the token "jwt". -/
def wBodyTok : LoginRequest := ⟨UserInfo.otherKind, LoginInfo.token "jwt", none, none⟩

/-- Concrete password-login request for the deactivated user "carol". -/
def wBodyDeact : LoginRequest := ⟨UserInfo.matrixId "carol", LoginInfo.password "pw", none, none⟩

/-- Concrete database where "carol" has the empty password hash. -/
def wDbDeact : Db := ⟨⟨[("carol", "")], []⟩, []⟩

/-- Result of the concrete password login. -/
def wOutPw : Db × Rng × Except Error LoginResponse := login_route wEnv wDb wRng wBodyPw

/-- Response of the concrete password login. -/
def wRespPw : LoginResponse :=
  match wOutPw.2.2 with
  | Except.ok resp => resp
  | Except.error _ => ⟨"", "", none, ""⟩

/-- Result of the concrete token login. -/
def wOutTok : Db × Rng × Except Error LoginResponse := login_route wEnvTok wDb wRng wBodyTok

end Session

/-
The room event-graph and state-resolution engine.  This subsystem is not
part of the source excerpt; every definition below is modelled from the
design document (sections 3, 4 and 7), as stated in its doc comment.
Identifiers (event ids, user ids, room ids, event-type codes) are opaque
hash values, embedded as natural numbers; `(type, state_key)` slots are
encoded with the standard pairing function.
-/

namespace Engine

/-
Generic sorted key-value machinery: all canonical sets and maps of the
engine are strictly-sorted lists under a Nat-valued key function.
-/

/-- Insertion into a list sorted by strictly increasing key; an entry
with an equal key is replaced. -/
def insKey (key : β → Nat) (x : β) : List β → List β
  | [] => [x]
  | y :: l =>
    if key x < key y then x :: y :: l
    else if key x = key y then x :: l
    else y :: insKey key x l

/-- Lookup by key: the first entry with the given key. -/
def lookupKey (key : β → Nat) (k : Nat) (l : List β) : Option β :=
  l.find? (fun y => key y = k)

/-- Key membership test. -/
def containsKey (key : β → Nat) (k : Nat) (l : List β) : Bool :=
  (lookupKey key k l).isSome

/-- Removal of the (first) entry with the given key. -/
def eraseKey (key : β → Nat) (k : Nat) : List β → List β
  | [] => []
  | y :: l => if key y = k then l else y :: eraseKey key k l

/-- Strictly-sorted-by-key predicate. -/
def SortedK (key : β → Nat) (l : List β) : Prop :=
  l.Pairwise (fun a b => key a < key b)

/-- Sequencing of a list of optional values (`None` propagates). -/
def seqOption : List (Option α) → Option (List α)
  | [] => some []
  | none :: _ => none
  | some a :: l => (seqOption l).map (fun t => a :: t)

/-- Selection of the least element under a boolean comparison: the
picked element together with the remaining ones. -/
def pickMin (le : α → α → Bool) (x : α) : List α → α × List α
  | [] => (x, [])
  | y :: l =>
    if le x y then ((pickMin le x l).1, y :: (pickMin le x l).2)
    else ((pickMin le y l).1, x :: (pickMin le y l).2)

/-
Modelled from the spec: the data model of section 3.
-/

/-- Event-type code of `m.room.create`. -/
def typeCreate : Nat := 0

/-- Event-type code of `m.room.member`. -/
def typeMember : Nat := 1

/-- Event-type code of `m.room.power_levels`. -/
def typePowerLevels : Nat := 2

/-- Membership values carried by `m.room.member` state events. -/
inductive Membership where
  | join
  | invite
  | leave
  | ban
deriving DecidableEq

/-- Content of an `m.room.power_levels` event: per-user levels, the
default user level, the required level for state events, the required
level for plain (message) events, and the thresholds for membership
transitions. -/
structure PowerLevelsContent where
  users : List (Nat × Int)
  usersDefault : Int
  stateDefault : Int
  sendDefault : Int
  inviteLevel : Int
  banLevel : Int
  kickLevel : Int
deriving DecidableEq

/-- Modelled from the spec: the structured payload of an event, with the
variants the Auth Checker dispatches on (section 4.3); other payloads are
opaque. -/
inductive Content where
  | create
  | member (m : Membership)
  | powerLevels (pl : PowerLevelsContent)
  | other (payload : Nat)
deriving DecidableEq

/-- Modelled from the spec: an immutable PDU (section 3).  `state_key` is
present only for state events; `prev_events` are the parent edges of the
room DAG; `auth_events` is the declared auth chain (glossary: the state
events the event cites as justifying its admission); `depth` is assigned
by the Graph Index at acceptance. -/
structure Event where
  event_id : Nat
  room_id : Nat
  sender : Nat
  event_type : Nat
  state_key : Option Nat
  content : Content
  prev_events : List Nat
  auth_events : List Nat
  depth : Nat
  origin_server_ts : Nat
deriving DecidableEq

/-- Key function: the event id. -/
def eid (e : Event) : Nat := e.event_id

/-- The `(event_type, state_key)` slot of a state event, as a single
encoded key. -/
def slotOf (e : Event) : Nat := Nat.pair e.event_type (e.state_key.getD 0)

/-- A state snapshot: a slot-sorted list of the state events currently
occupying each `(type, state_key)` slot (section 3 stores the occupying
event id per slot; the embedding keeps the whole event so that derived
views can read its content). -/
abbrev StateSnapshot := List Event

/-- Lookup of the event occupying a slot. -/
def lookupSlot (s : StateSnapshot) (k : Nat) : Option Event :=
  lookupKey slotOf k s

/-- Lookup of a stored event by id. -/
def lookupEv (store : List Event) (i : Nat) : Option Event :=
  lookupKey eid i store

/-
Modelled from the spec: the Auth Checker (section 4.3), a pure function
of the candidate event and a state snapshot.
-/

/-- The fixed default power-level schema used when the power-levels slot
is absent (the ban threshold strictly above the invite threshold, as
required by rule 3). -/
def defaultPL : PowerLevelsContent := ⟨[], 0, 50, 0, 50, 60, 55⟩

/-- The power-levels content in force in a snapshot, if any. -/
def plOf (s : StateSnapshot) : Option PowerLevelsContent :=
  match lookupSlot s (Nat.pair typePowerLevels 0) with
  | some e =>
    match e.content with
    | Content.powerLevels pl => some pl
    | _ => none
  | none => none

/-- The room creator: sender of the create event in the snapshot. -/
def creatorOf (s : StateSnapshot) : Option Nat :=
  (lookupSlot s (Nat.pair typeCreate 0)).map (fun e => e.sender)

/-- Sender power level, read from the power-levels slot; when that slot
is absent the creator has level 100 and everyone else 0. -/
def userPower (s : StateSnapshot) (u : Nat) : Int :=
  match plOf s with
  | some pl =>
    match pl.users.lookup u with
    | some p => p
    | none => pl.usersDefault
  | none => if creatorOf s = some u then 100 else 0

/-- Membership of a user in a snapshot. -/
def membershipOf (s : StateSnapshot) (u : Nat) : Option Membership :=
  match lookupSlot s (Nat.pair typeMember u) with
  | some e =>
    match e.content with
    | Content.member m => some m
    | _ => none
  | none => none

/-- The membership value a member event carries, if any. -/
def contentMembership : Content → Option Membership
  | Content.member m => some m
  | _ => none

/-- Whether the event is the membership-granting event under evaluation:
a join of the sender itself, by a sender the snapshot has not banned. -/
def isSelfJoin (e : Event) (s : StateSnapshot) : Bool :=
  decide (e.event_type = typeMember) && decide (e.state_key = some e.sender) &&
  decide (contentMembership e.content = some Membership.join) &&
  !(decide (membershipOf s e.sender = some Membership.ban))

/-- The power level required for a state event (rule 3): membership
transitions have independent thresholds (join free for the sender,
invite/ban/kick from the power-levels schema, leaving free); other state
events need the state default. -/
def requiredLevel (s : StateSnapshot) (e : Event) : Int :=
  let pl := (plOf s).getD defaultPL
  if e.event_type = typeMember then
    match contentMembership e.content with
    | some Membership.join => 0
    | some Membership.invite => pl.inviteLevel
    | some Membership.ban => pl.banLevel
    | some Membership.leave =>
      if e.state_key = some e.sender then 0 else pl.kickLevel
    | none => pl.stateDefault
  else pl.stateDefault

/-- Modelled from the spec: `is_authorized(event, state)` (section 4.3).
Rules in fixed order: (1) create events are self-authorizing exactly when
they are the sole root; (2) the sender must be joined, unless the event
is itself the sender's join; (3) state events need the sender's power to
reach the required level for the slot; (4) non-state events need the
minimum send level. -/
def is_authorized (e : Event) (s : StateSnapshot) : Bool :=
  if e.event_type = typeCreate then
    decide (e.prev_events = []) && (lookupSlot s (Nat.pair typeCreate 0)).isNone
  else if (lookupSlot s (Nat.pair typeCreate 0)).isNone then false
  else if decide (membershipOf s e.sender = some Membership.join) || isSelfJoin e s then
    match e.state_key with
    | some _ => decide (requiredLevel s e ≤ userPower s e.sender)
    | none => decide (((plOf s).getD defaultPL).sendDefault ≤ userPower s e.sender)
  else false

/-
Modelled from the spec: the State Resolver (section 4.4).
-/

/-- All slot keys present in any input snapshot, as a sorted set. -/
def allSlotKeys (inputs : List StateSnapshot) : List Nat :=
  inputs.foldl (fun acc s => s.foldl (fun acc2 e => insKey (fun n => n) (slotOf e) acc2) acc) []

/-- The values the input snapshots hold for a slot. -/
def slotValues (inputs : List StateSnapshot) (k : Nat) : List Event :=
  inputs.filterMap (fun s => lookupSlot s k)

/-- The agreed value of a slot: some input holds it and every input
that holds it holds the same event ("unconflicted", step 1). -/
def slotAgreed (inputs : List StateSnapshot) (k : Nat) : Option Event :=
  match slotValues inputs k with
  | [] => none
  | v :: vs => if vs.all (fun w => decide (w = v)) then some v else none

/-- The unconflicted portion of the inputs: agreed slots pass through. -/
def unconflicted (inputs : List StateSnapshot) : StateSnapshot :=
  (allSlotKeys inputs).filterMap (fun k => slotAgreed inputs k)

/-- The events occupying conflicted slots, as an id-sorted set. -/
def conflictedEvents (inputs : List StateSnapshot) : List Event :=
  ((allSlotKeys inputs).flatMap (fun k =>
      if (slotAgreed inputs k).isNone then slotValues inputs k else [])).foldl
    (fun acc e => insKey eid e acc) []

/-- Whether an event id appears as a slot value in every input. -/
def inAllInputs (inputs : List StateSnapshot) (i : Nat) : Bool :=
  inputs.all (fun s => s.any (fun e => e.event_id == i))

/-- The auth-difference set (step 2): the declared auth chains of the
conflicted events, minus the events every snapshot already agrees on,
dereferenced in the store; a missing event signals IncompleteGraph
(`none`). -/
def authDifference (store : List Event) (inputs : List StateSnapshot)
    (confl : List Event) : Option (List Event) :=
  let ids := ((confl.flatMap (fun e => e.auth_events)).filter
      (fun i => !(inAllInputs inputs i))).foldl
    (fun acc i => insKey (fun n => n) i acc) []
  seqOption (ids.map (fun i => lookupEv store i))

/-- The power-ordered comparison of step 3, relative to the power
context in force at this point of the iterative evaluation: descending
sender power level, then ascending origin_server_ts, then ascending
event_id as the final deterministic tiebreak. -/
def candLE (base : StateSnapshot) (a b : Event) : Bool :=
  decide (userPower base b.sender < userPower base a.sender) ||
  (decide (userPower base a.sender = userPower base b.sender) &&
    (decide (a.origin_server_ts < b.origin_server_ts) ||
      (decide (a.origin_server_ts = b.origin_server_ts) &&
        decide (a.event_id ≤ b.event_id))))

/-- Updating a snapshot with a state event's slot (non-state events do
not occupy a slot). -/
def applySlot (s : StateSnapshot) (e : Event) : StateSnapshot :=
  match e.state_key with
  | some _ => insKey slotOf e s
  | none => s

/-- Modelled from the spec: the iterative power evaluation of step 3 —
once a power-level event has been placed in the order it is resolved, so
the sender power of the events it gates is read from it; placing any
other event leaves the power context unchanged. -/
def powerContext (s : StateSnapshot) (e : Event) : StateSnapshot :=
  if e.event_type = typePowerLevels then applySlot s e else s

/-- Modelled from the spec: the reverse-topological power-ordered sort
of step 3, evaluated iteratively.  At every step the least candidate
under the power order — sender power read in the current power context —
is placed next, and the context is updated with it when it is a
power-level event, so power-level events are resolved before the events
they gate.  The fuel argument is instantiated with the list length. -/
def iterSort : Nat → StateSnapshot → List Event → List Event
  | 0, _, _ => []
  | _ + 1, _, [] => []
  | fuel + 1, s, c :: cs =>
    (pickMin (candLE s) c cs).1 ::
      iterSort fuel (powerContext s (pickMin (candLE s) c cs).1)
        (pickMin (candLE s) c cs).2

/-- The replay of step 4: each candidate that passes the Auth Checker
against the state accumulated so far updates its slot, each that fails
is discarded. -/
def replay (base : StateSnapshot) (cands : List Event) : StateSnapshot :=
  cands.foldl (fun s e => if is_authorized e s then applySlot s e else s) base

/-- Modelled from the spec: the State Resolver (section 4.4).  Empty
candidate set: the unconflicted state is returned directly (fast path).
Otherwise the candidate set (conflicted events plus auth-difference) is
sorted by the iteratively evaluated power order, starting from the
unconflicted base as the initial power context, and replayed from the
unconflicted base; a candidate missing from the store yields `none`
(IncompleteGraph). -/
def resolve (store : List Event) (inputs : List StateSnapshot) : Option StateSnapshot :=
  let confl := conflictedEvents inputs
  if confl = [] then some (unconflicted inputs)
  else
    match authDifference store inputs confl with
    | none => none
    | some diff =>
      let cands := (confl ++ diff).foldl (fun acc e => insKey eid e acc) []
      some (replay (unconflicted inputs)
        (iterSort cands.length (unconflicted inputs) cands))

/-- The direct union of the input snapshots (later inputs overwrite a
slot): the value the fast path must coincide with when nothing
conflicts. -/
def snapshotUnion (inputs : List StateSnapshot) : StateSnapshot :=
  inputs.foldl (fun acc s => s.foldl (fun acc2 e => insKey slotOf e acc2) acc) []

/-- The state reached after an event: the resolution of its parents'
states, updated with the event's own slot.  The fuel argument bounds the
recursion depth through `prev_events`; stored DAGs are evaluated with
fuel above every stored depth, which the depth invariant makes enough. -/
def stateAfter (store : List Event) : Nat → Event → Option StateSnapshot
  | 0, _ => none
  | fuel + 1, e =>
    match seqOption (e.prev_events.map (fun i => lookupEv store i)) with
    | none => none
    | some parents =>
      match seqOption (parents.map (fun p => stateAfter store fuel p)) with
      | none => none
      | some states =>
        match resolve store states with
        | none => none
        | some st => some (applySlot st e)

/-- The resolved state at a frontier given explicit fuel: resolution of
the states after each frontier event. -/
def stateAtIds (store : List Event) (fuel : Nat) (f : List Nat) : Option StateSnapshot :=
  match seqOption (f.map (fun i => lookupEv store i)) with
  | none => none
  | some evs =>
    match seqOption (evs.map (fun p => stateAfter store fuel p)) with
    | none => none
    | some states => resolve store states

/-- One above the largest stored depth: enough fuel for any stored
frontier. -/
def maxDepth (store : List Event) : Nat :=
  store.foldr (fun e m => max e.depth m) 0

/-- The resolved state at a frontier of stored event ids. -/
def stateAtFrontier (store : List Event) (f : List Nat) : Option StateSnapshot :=
  stateAtIds store (maxDepth store + 1) f

/-
Modelled from the spec: the Ingestion Pipeline (section 4.6), the Graph
Index (section 4.2) and the Event Store contract (section 4.1), per
room.  The per-event outcome mirrors the pipeline's terminal states.
-/

/-- Reasons for a permanent rejection (section 7 taxonomy). -/
inductive RejectReason where
  | unauthorized
  | unresolvable
deriving DecidableEq

/-- The terminal outcome of submitting one event. -/
inductive Outcome where
  | accepted
  | duplicate
  | alreadyRejected
  | suspended (missing : List Nat)
  | rejected (reason : RejectReason)
deriving DecidableEq

/-- Modelled from the spec: the per-room state.  `store` is the event
store (id-sorted), `extremities` the forward-extremity set, `rejected`
the permanently rejected event ids, `pending` the suspended events
waiting for missing dependencies together with their remaining retry
budget. -/
structure Room where
  store : List Event
  extremities : List Nat
  rejected : List Nat
  pending : List (Event × Nat)
deriving DecidableEq

/-- A fresh room. -/
def emptyRoom : Room := ⟨[], [], [], []⟩

/-- The bounded retry budget for missing-parent suspension. -/
def RETRY_BUDGET : Nat := 5

/-- The dependencies an event needs locally before it can be checked:
its parents and its declared auth chain. -/
def deps (e : Event) : List Nat := e.prev_events ++ e.auth_events

/-- The dependencies of an event not yet stored. -/
def missingDeps (store : List Event) (e : Event) : List Nat :=
  (deps e).filter (fun i => !(containsKey eid i store))

/-- Depth assignment of the Graph Index: one greater than the maximum
parent depth (section 4.2). -/
def withDepth (store : List Event) (e : Event) : Event :=
  { e with depth :=
      1 + ((e.prev_events.filterMap (fun i => lookupEv store i)).map
            (fun p => p.depth)).foldr max 0 }

/-- Key of a pending entry. -/
def pendKey (p : Event × Nat) : Nat := p.1.event_id

/-- The transactional acceptance of an event: store it with its
assigned depth, make it an extremity and remove its parents from the
extremity set. -/
def acceptRoom (r : Room) (e : Event) : Room :=
  { store := insKey eid (withDepth r.store e) r.store,
    extremities := insKey (fun n => n) e.event_id
      (r.extremities.filter (fun i => !(e.prev_events.contains i))),
    rejected := r.rejected,
    pending := r.pending }

/-- Processing of an event not seen before: suspend when a dependency is
missing (`MissingParent`) or resolution is incomplete (IncompleteGraph),
permanently reject when the Auth Checker fails against the resolved
parent state, otherwise store it, assign its depth and update the
forward extremities in the same transaction (the new event becomes an
extremity, its parents stop being ones). -/
def ingestNew (r : Room) (e : Event) : Room × Outcome :=
  let miss := missingDeps r.store e
  if miss.isEmpty then
    match stateAtFrontier r.store e.prev_events with
    | none =>
      ({ r with pending := insKey pendKey (e, RETRY_BUDGET) r.pending },
       Outcome.suspended [])
    | some st =>
      if is_authorized e st then (acceptRoom r e, Outcome.accepted)
      else
        ({ r with rejected := insKey (fun n => n) e.event_id r.rejected },
         Outcome.rejected RejectReason.unauthorized)
  else
    ({ r with pending := insKey pendKey (e, RETRY_BUDGET) r.pending },
     Outcome.suspended miss)

/-- The resumption loop: while some suspended event has every dependency
stored, it completes ingestion (without being re-submitted). -/
def saturate : Nat → Room → Room
  | 0, r => r
  | fuel + 1, r =>
    match r.pending.find? (fun p => (missingDeps r.store p.1).isEmpty) with
    | none => r
    | some p =>
      saturate fuel
        (ingestNew { r with pending := eraseKey pendKey p.1.event_id r.pending } p.1).1

/-- Modelled from the spec: one submission to the Ingestion Pipeline
(section 4.6).  Re-receiving an id that is already stored or suspended
short-circuits to success without re-running any checks; a permanently
rejected id stays rejected; otherwise the event is processed and, on
acceptance, suspended events that newly became complete are resumed. -/
def process (r : Room) (e : Event) : Room × Outcome :=
  if containsKey eid e.event_id r.store then (r, Outcome.duplicate)
  else if r.rejected.contains e.event_id then (r, Outcome.alreadyRejected)
  else if containsKey pendKey e.event_id r.pending then (r, Outcome.duplicate)
  else
    match ingestNew r e with
    | (r1, Outcome.accepted) => (saturate r1.pending.length r1, Outcome.accepted)
    | (r1, o) => (r1, o)

/-- Ingestion of a whole delivery sequence into a fresh room. -/
def ingestAll (l : List Event) : Room :=
  l.foldl (fun r e => (process r e).1) emptyRoom

/-- Exposed interface (section 6): the resolved state at the live
forward-extremity frontier. -/
def get_resolved_state (r : Room) : Option StateSnapshot :=
  stateAtFrontier r.store r.extremities

/-- One expiry round of the retry budget: suspended events whose budget
is exhausted become permanently rejected (`Unresolvable`), the others
lose one budget unit. -/
def expire (r : Room) : Room × List Nat :=
  let dead := r.pending.filter (fun p => p.2 = 0)
  ({ r with
      pending := (r.pending.filter (fun p => p.2 ≠ 0)).map (fun p => (p.1, p.2 - 1)),
      rejected := dead.foldl (fun acc p => insKey (fun n => n) p.1.event_id acc) r.rejected },
   dead.map (fun p => p.1.event_id))

/-- Whether a stored event has a recorded child in the store. -/
def hasChildIn (store : List Event) (i : Nat) : Bool :=
  store.any (fun f => f.prev_events.contains i)

/-- The set of stored events with zero recorded children. -/
def zeroChildren (store : List Event) : List Nat :=
  (store.filter (fun e => !(hasChildIn store e.event_id))).map eid

/-
Invariants of reachable rooms, and the causal-order predicate used by
the determinism property.
-/

/-- Well-formedness of the event store: id-sorted, closed under the
dependency edges, positive depths, and depth strictly above every
parent's depth. -/
def StoreOK (store : List Event) : Prop :=
  SortedK eid store ∧
  (∀ e ∈ store, ∀ i ∈ deps e, containsKey eid i store = true) ∧
  (∀ e ∈ store, 1 ≤ e.depth) ∧
  (∀ e ∈ store, ∀ i ∈ e.prev_events, ∀ p, lookupEv store i = some p → p.depth < e.depth)

/-- Core invariant of reachable rooms: well-formed store, sorted
metadata, the extremity set exactly the zero-children set, rejected and
pending ids disjoint from the store (and from each other). -/
def InvCore (r : Room) : Prop :=
  StoreOK r.store ∧
  SortedK (fun n => n) r.extremities ∧
  SortedK (fun n => n) r.rejected ∧
  SortedK pendKey r.pending ∧
  r.extremities = zeroChildren r.store ∧
  (∀ i ∈ r.rejected, containsKey eid i r.store = false) ∧
  (∀ p ∈ r.pending, containsKey eid p.1.event_id r.store = false ∧
    p.1.event_id ∉ r.rejected)

/-- Invariant of reachable rooms: the core invariant, plus saturation —
no suspended event has all its dependencies stored. -/
def Inv (r : Room) : Prop :=
  InvCore r ∧ (∀ p ∈ r.pending, missingDeps r.store p.1 ≠ [])

/-- A delivery list is causal relative to already-seen ids when every
event's dependencies were seen before it and ids never repeat. -/
def Causal (seen : List Nat) : List Event → Prop
  | [] => True
  | e :: l => (∀ i ∈ deps e, i ∈ seen) ∧ e.event_id ∉ seen ∧
      Causal (e.event_id :: seen) l

/-- A causally ordered delivery: dependencies before children, fresh
ids. -/
def CausallyOrdered (l : List Event) : Prop := Causal [] l

/-- The seen-id set after delivering a whole list. -/
def seenAfter (seen : List Nat) : List Event → List Nat
  | [] => seen
  | e :: l => seenAfter (e.event_id :: seen) l

/-- The store effect of delivering one fresh event, as a pure function
of the store alone (proof device for the determinism property). -/
def accStep (st : List Event) (e : Event) : List Event :=
  if containsKey eid e.event_id st then st
  else if (missingDeps st e).isEmpty then
    match stateAtFrontier st e.prev_events with
    | none => st
    | some s => if is_authorized e s then insKey eid (withDepth st e) st else st
  else st

/-- The acceptance decision of `accStep`, as a boolean. -/
def accDecide (st : List Event) (e : Event) : Bool :=
  !(containsKey eid e.event_id st) && (missingDeps st e).isEmpty &&
    (match stateAtFrontier st e.prev_events with
     | some s => is_authorized e s
     | none => false)

/-- The store reached by a delivery sequence, as a pure fold. -/
def accStore (l : List Event) : List Event := l.foldl accStep []

/-
Concrete scenario used for evaluation (the determinism vector of
section 8): A creates the room, B is the creator's join, C raises the
power levels, D and E are conflicting state events in the same slot.
-/

/-- Scenario event A: the room-creation event. -/
def evA : Event := ⟨1, 0, 10, typeCreate, some 0, Content.create, [], [], 0, 100⟩

/-- Scenario event B: the creator's join, child of A. -/
def evB : Event :=
  ⟨2, 0, 10, typeMember, some 10, Content.member Membership.join, [1], [1], 0, 200⟩

/-- Scenario event C: a power-level change, child of B. -/
def evC : Event := ⟨3, 0, 10, typePowerLevels, some 0,
  Content.powerLevels ⟨[(10, 100), (20, 50)], 0, 50, 0, 50, 60, 55⟩, [2], [1, 2], 0, 300⟩

/-- Scenario event D: a state event in slot (7, 0), child of C. -/
def evD : Event := ⟨4, 0, 10, 7, some 0, Content.other 1, [3], [1, 2, 3], 0, 400⟩

/-- Scenario event E: a state event conflicting with D, child of C. -/
def evE : Event := ⟨5, 0, 10, 7, some 0, Content.other 2, [3], [1, 2, 3], 0, 450⟩

/-- Unconflicted input snapshots for evaluating the resolver fast path. -/
def inputsW7 : List StateSnapshot := [[evA], [evA, evB]]

/-- A store holding the scenario prefix A, B, C. -/
def storeW10 : List Event := (ingestAll [evA, evB, evC]).store

/-- Conflicting input snapshots (slot (7, 0) disagrees). -/
def inputsW10 : List StateSnapshot := [[evA, evD], [evA, evE]]

/-- The auth-difference of the conflicting snapshots over `storeW10`. -/
def diffW10 : List Event :=
  (authDifference storeW10 inputsW10 (conflictedEvents inputsW10)).getD []

/-- Scenario event F: a state event from a non-member sender, child of
B; fails authorization. -/
def evF : Event := ⟨6, 0, 20, 7, some 0, Content.other 3, [2], [1, 2], 0, 500⟩

/-- The room after A and B. -/
def roomW8 : Room := ingestAll [evA, evB]

/-- The pre-state of F in `roomW8`. -/
def stW8 : StateSnapshot := (stateAtFrontier roomW8.store evF.prev_events).getD []

/-- The room after delivering A and then C out of order (C suspends on
its missing parent B). -/
def roomW9 : Room := ingestAll [evA, evC]

/-- The pre-state of C once B has arrived in `roomW9`. -/
def stW9 : StateSnapshot :=
  (stateAtFrontier (process roomW9 evB).1.store evC.prev_events).getD []

/-- `roomW9` after five expiry rounds: the suspended C has exhausted its
retry budget. -/
def roomW9c : Room :=
  (expire (expire (expire (expire (expire roomW9).1).1).1).1).1

end Engine

/-
Theorems about the session module.
-/

namespace Session

theorem random_string_length (n : Nat) (r : Rng) :
    (random_string n r).1.length = n := by
  simp [random_string, String.length]

theorem random_string_stream (n : Nat) (r : Rng) :
    (random_string n r).2.stream = r.stream := rfl

theorem finishLogin_ok (env : LoginEnv) (db : Db) (r : Rng) (body : LoginRequest)
    (uid : String) (db1 : Db) (r1 : Rng) (resp : LoginResponse)
    (h : finishLogin env db r body uid = (db1, r1, Except.ok resp)) :
    resp.user_id = uid ∧
    resp.access_token.length = TOKEN_LENGTH ∧
    (⟨resp.user_id, resp.device_id, resp.access_token,
        body.initial_device_display_name⟩ : Device) ∈ db1.users.devices ∧
    (∀ d, body.device_id = some d → resp.device_id = d) ∧
    (body.device_id = none → resp.device_id.length = DEVICE_ID_LENGTH) ∧
    (∃ p, resp.access_token = (random_string TOKEN_LENGTH ⟨r.stream, p⟩).1) := by
  cases hd : body.device_id with
  | none =>
    simp only [finishLogin, hd, Prod.mk.injEq, Except.ok.injEq] at h
    obtain ⟨hdb, hr, hresp⟩ := h
    subst hdb
    subst hresp
    refine ⟨rfl, random_string_length .., ?_, by simp [hd],
      fun _ => random_string_length .., ⟨r.pos + DEVICE_ID_LENGTH, rfl⟩⟩
    simp [Users.create_device]
  | some d =>
    simp only [finishLogin, hd, Prod.mk.injEq, Except.ok.injEq] at h
    obtain ⟨hdb, hr, hresp⟩ := h
    subst hdb
    subst hresp
    refine ⟨rfl, random_string_length .., ?_, ?_, by simp [hd], ⟨r.pos, rfl⟩⟩
    · simp [Users.create_device]
    · intro d' hdd
      exact Option.some.inj hdd

theorem finishLogin_isOk (env : LoginEnv) (db : Db) (r : Rng) (body : LoginRequest)
    (uid : String) : (finishLogin env db r body uid).2.2.isOk = true := by
  cases hd : body.device_id <;> simp [finishLogin, hd, Except.isOk, Except.toBool]

/-- C3: every successful login issues a fresh access token of length
TOKEN_LENGTH drawn from the randomness source, registers it for the
response's (user, device) pair via create_device before returning, uses
the request's device id verbatim when present, and otherwise a fresh
random device id of length DEVICE_ID_LENGTH. -/
theorem login_issues_fresh_device_and_token (env : LoginEnv) (db : Db) (r : Rng)
    (body : LoginRequest) (db1 : Db) (r1 : Rng) (resp : LoginResponse)
    (h : login_route env db r body = (db1, r1, Except.ok resp)) :
    resp.access_token.length = TOKEN_LENGTH ∧
    (⟨resp.user_id, resp.device_id, resp.access_token,
        body.initial_device_display_name⟩ : Device) ∈ db1.users.devices ∧
    (∀ d, body.device_id = some d → resp.device_id = d) ∧
    (body.device_id = none → resp.device_id.length = DEVICE_ID_LENGTH) ∧
    (∃ p, resp.access_token = (random_string TOKEN_LENGTH ⟨r.stream, p⟩).1) := by
  cases hli : body.login_info with
  | password pw =>
    cases hu : body.user with
    | otherKind => simp [login_route, hli, hu] at h
    | matrixId username =>
      cases hp : env.parse_with_server_name username env.server_name with
      | none => simp [login_route, hli, hu, hp] at h
      | some uid =>
        cases hh : db.users.password_hash uid with
        | none => simp [login_route, hli, hu, hp, hh] at h
        | some hash =>
          by_cases he : hash = ""
          · simp [login_route, hli, hu, hp, hh, he] at h
          · by_cases hv : (env.verify_encoded hash pw).getD false
            · simp only [login_route, hli, hu, hp, hh, he, hv, if_false, if_true] at h
              exact (finishLogin_ok env db r body uid db1 r1 resp h).2
            · simp [login_route, hli, hu, hp, hh, he, hv] at h
  | token tok =>
    cases hj : env.jwt_decode tok with
    | none => simp [login_route, hli, hj] at h
    | some claims =>
      cases hp : env.parse_with_server_name claims.sub env.server_name with
      | none => simp [login_route, hli, hj, hp] at h
      | some uid =>
        by_cases hex : db.users.existsUser uid
        · simp only [login_route, hli, hj, hp, hex, if_true] at h
          exact (finishLogin_ok env db r body uid db1 r1 resp h).2
        · simp only [login_route, hli, hj, hp, hex, if_false, Bool.false_eq_true,
            if_neg] at h
          have := (finishLogin_ok env _ _ body uid db1 r1 resp h).2
          refine ⟨this.1, this.2.1, this.2.2.1, this.2.2.2.1, ?_⟩
          obtain ⟨p, hp2⟩ := this.2.2.2.2
          exact ⟨p, hp2⟩

/-- C3 witness: the concrete password login succeeds with a
256-character token and a 10-character fresh device id. -/
theorem login_issues_fresh_device_and_token_witness :
    wRespPw.access_token.length = TOKEN_LENGTH ∧
    wRespPw.device_id.length = DEVICE_ID_LENGTH := by
  have h : login_route wEnv wDb wRng wBodyPw = (wOutPw.1, wOutPw.2.1, Except.ok wRespPw) := rfl
  have main := login_issues_fresh_device_and_token wEnv wDb wRng wBodyPw
    wOutPw.1 wOutPw.2.1 wRespPw h
  exact ⟨main.1, main.2.2.2.1 rfl⟩

/-- C4: token login with a valid JWT naming an unknown user first
registers that user (default push rules, a random 40-character
password) and then issues a device and token; an invalid JWT yields a
BadRequest error. -/
theorem token_login_autoregisters (env : LoginEnv) (db : Db) (r : Rng)
    (body : LoginRequest) (tok : String)
    (hli : body.login_info = LoginInfo.token tok) :
    (∀ claims uid, env.jwt_decode tok = some claims →
      env.parse_with_server_name claims.sub env.server_name = some uid →
      db.users.existsUser uid = false →
      ∃ db1 r1 resp, login_route env db r body = (db1, r1, Except.ok resp) ∧
        resp.user_id = uid ∧
        (uid, env.calculate_hash (generate_random_password r).1)
          ∈ db1.users.passwordHashes ∧
        (generate_random_password r).1.length = 40 ∧
        (⟨uid, "m.push_rules"⟩ : AccountDataEntry) ∈ db1.account_data ∧
        (⟨uid, resp.device_id, resp.access_token,
            body.initial_device_display_name⟩ : Device) ∈ db1.users.devices) ∧
    (env.jwt_decode tok = none →
      login_route env db r body = (db, r,
        Except.error (Error.badRequest ErrorKind.invalidUsername "Token is invalid."))) := by
  constructor
  · intro claims uid hj hp hex
    rcases hfin : finishLogin env
        { users := db.users.create env.calculate_hash uid (generate_random_password r).1,
          account_data := ⟨uid, "m.push_rules"⟩ :: db.account_data }
        (generate_random_password r).2 body uid with ⟨db1, r1, res⟩
    have hok := finishLogin_isOk env
        { users := db.users.create env.calculate_hash uid (generate_random_password r).1,
          account_data := ⟨uid, "m.push_rules"⟩ :: db.account_data }
        (generate_random_password r).2 body uid
    rw [hfin] at hok
    cases res with
    | error e => simp [Except.isOk, Except.toBool] at hok
    | ok resp =>
      refine ⟨db1, r1, resp, ?_, ?_⟩
      · simp only [login_route, hli, hj, hp, hex, Bool.false_eq_true, if_false]
        exact hfin
      · have hfo := finishLogin_ok env _ _ body uid db1 r1 resp hfin
        refine ⟨hfo.1, ?_, random_string_length .., ?_, ?_⟩
        · have hdev : db1.users.passwordHashes =
              (uid, env.calculate_hash (generate_random_password r).1)
                :: db.users.passwordHashes := by
            cases hd : body.device_id <;>
              simp only [finishLogin, hd] at hfin <;>
              · obtain ⟨hdb, -, -⟩ := Prod.mk.injEq .. ▸ hfin
                rw [← hdb]
                rfl
          rw [hdev]
          exact List.mem_cons_self ..
        · have hacc : db1.account_data = ⟨uid, "m.push_rules"⟩ :: db.account_data := by
            cases hd : body.device_id <;>
              simp only [finishLogin, hd] at hfin <;>
              · obtain ⟨hdb, -, -⟩ := Prod.mk.injEq .. ▸ hfin
                rw [← hdb]
          rw [hacc]
          exact List.mem_cons_self ..
        · have := hfo.2.2.1
          rwa [hfo.1] at this
  · intro hj
    simp [login_route, hli, hj]

/-- C4 witness: the concrete token login auto-registers user "bob". -/
theorem token_login_autoregisters_witness :
    ∃ db1 r1 resp, login_route wEnvTok wDb wRng wBodyTok = (db1, r1, Except.ok resp) ∧
      resp.user_id = "bob" ∧
      ("bob", wEnvTok.calculate_hash (generate_random_password wRng).1)
        ∈ db1.users.passwordHashes ∧
      (generate_random_password wRng).1.length = 40 ∧
      (⟨"bob", "m.push_rules"⟩ : AccountDataEntry) ∈ db1.account_data ∧
      (⟨"bob", resp.device_id, resp.access_token,
          wBodyTok.initial_device_display_name⟩ : Device) ∈ db1.users.devices := by
  have main := (token_login_autoregisters wEnvTok wDb wRng wBodyTok "jwt" rfl).1
    ⟨"bob", 0⟩ "bob" rfl rfl (by decide)
  exact main

/-- C5: with password login, every failure path returns its specific
error with the database and the randomness source untouched (so no
device or token is created); a stored empty hash is reported as
UserDeactivated, not as a wrong password. -/
theorem password_login_failure_paths (env : LoginEnv) (db : Db) (r : Rng)
    (body : LoginRequest) (pw : String)
    (hli : body.login_info = LoginInfo.password pw) :
    (∀ db1 r1 e, login_route env db r body = (db1, r1, Except.error e) →
      db1 = db ∧ r1 = r) ∧
    (body.user = UserInfo.otherKind →
      login_route env db r body = (db, r,
        Except.error (Error.badRequest ErrorKind.forbidden "Bad login type."))) ∧
    (∀ username, body.user = UserInfo.matrixId username →
      env.parse_with_server_name username env.server_name = none →
      login_route env db r body = (db, r,
        Except.error (Error.badRequest ErrorKind.invalidUsername "Username is invalid."))) ∧
    (∀ username uid, body.user = UserInfo.matrixId username →
      env.parse_with_server_name username env.server_name = some uid →
      db.users.password_hash uid = none →
      login_route env db r body = (db, r,
        Except.error (Error.badRequest ErrorKind.forbidden "Wrong username or password."))) ∧
    (∀ username uid, body.user = UserInfo.matrixId username →
      env.parse_with_server_name username env.server_name = some uid →
      db.users.password_hash uid = some "" →
      login_route env db r body = (db, r,
        Except.error (Error.badRequest ErrorKind.userDeactivated "The user has been deactivated"))) ∧
    (∀ username uid hash, body.user = UserInfo.matrixId username →
      env.parse_with_server_name username env.server_name = some uid →
      db.users.password_hash uid = some hash → hash ≠ "" →
      (env.verify_encoded hash pw).getD false = false →
      login_route env db r body = (db, r,
        Except.error (Error.badRequest ErrorKind.forbidden "Wrong username or password."))) := by
  refine ⟨?_, ?_, ?_, ?_, ?_, ?_⟩
  · intro db1 r1 e h
    cases hu : body.user with
    | otherKind =>
      simp only [login_route, hli, hu, Prod.mk.injEq] at h
      exact ⟨h.1.symm, h.2.1.symm⟩
    | matrixId username =>
      cases hp : env.parse_with_server_name username env.server_name with
      | none =>
        simp only [login_route, hli, hu, hp, Prod.mk.injEq] at h
        exact ⟨h.1.symm, h.2.1.symm⟩
      | some uid =>
        cases hh : db.users.password_hash uid with
        | none =>
          simp only [login_route, hli, hu, hp, hh, Prod.mk.injEq] at h
          exact ⟨h.1.symm, h.2.1.symm⟩
        | some hash =>
          by_cases he : hash = ""
          · simp only [login_route, hli, hu, hp, hh, he, if_true, Prod.mk.injEq] at h
            exact ⟨h.1.symm, h.2.1.symm⟩
          · by_cases hv : (env.verify_encoded hash pw).getD false
            · simp only [login_route, hli, hu, hp, hh, he, hv, if_false, if_true] at h
              have hok := finishLogin_isOk env db r body uid
              rw [h] at hok
              simp [Except.isOk, Except.toBool] at hok
            · simp only [login_route, hli, hu, hp, hh, he, hv, if_false, Prod.mk.injEq,
                Bool.false_eq_true] at h
              exact ⟨h.1.symm, h.2.1.symm⟩
  · intro hu
    simp [login_route, hli, hu]
  · intro username hu hp
    simp [login_route, hli, hu, hp]
  · intro username uid hu hp hh
    simp [login_route, hli, hu, hp, hh]
  · intro username uid hu hp hh
    simp [login_route, hli, hu, hp, hh]
  · intro username uid hash hu hp hh he hv
    simp [login_route, hli, hu, hp, hh, he, hv]

/-- C5 witness: the concrete deactivated user "carol" (empty hash) gets
the UserDeactivated error and the database is unchanged. -/
theorem password_login_failure_paths_witness :
    login_route wEnv wDbDeact wRng wBodyDeact = (wDbDeact, wRng,
      Except.error (Error.badRequest ErrorKind.userDeactivated "The user has been deactivated")) := by
  exact (password_login_failure_paths wEnv wDbDeact wRng wBodyDeact "pw" rfl).2.2.2.2.1
    "carol" "carol" rfl rfl (by decide)

end Session

/-
Theorems about the engine.  First: the sorted keyed-list layer.
-/

namespace Engine

variable {β : Type} {key : β → Nat}

theorem lookupKey_nil {k : Nat} : lookupKey key k ([] : List β) = none := rfl

theorem lookupKey_cons {k : Nat} {y : β} {l : List β} :
    lookupKey key k (y :: l) = if key y = k then some y else lookupKey key k l := by
  by_cases h : key y = k <;> simp [lookupKey, List.find?_cons, h]

theorem lookupKey_mem {k : Nat} {l : List β} {z : β}
    (h : lookupKey key k l = some z) : z ∈ l ∧ key z = k := by
  refine ⟨List.mem_of_find?_eq_some h, ?_⟩
  have := List.find?_some h
  simpa using this

theorem lookupKey_eq_none {k : Nat} {l : List β} (h : ∀ z ∈ l, key z ≠ k) :
    lookupKey key k l = none := by
  apply List.find?_eq_none.2
  intro z hz
  simpa using h z hz

theorem lookupKey_isSome_iff {k : Nat} {l : List β} :
    (lookupKey key k l).isSome = true ↔ ∃ z ∈ l, key z = k := by
  constructor
  · intro h
    obtain ⟨z, hz⟩ := Option.isSome_iff_exists.1 h
    exact ⟨z, (lookupKey_mem hz).1, (lookupKey_mem hz).2⟩
  · rintro ⟨z, hzl, hzk⟩
    cases hl : lookupKey key k l with
    | some w => rfl
    | none =>
      exact absurd hzk (by simpa using List.find?_eq_none.1 hl z hzl)

theorem containsKey_iff {k : Nat} {l : List β} :
    containsKey key k l = true ↔ ∃ z ∈ l, key z = k := by
  simpa [containsKey] using @lookupKey_isSome_iff β key k l

theorem containsKey_false {k : Nat} {l : List β}
    (h : containsKey key k l = false) : ∀ z ∈ l, key z ≠ k := by
  intro z hz hk
  have := containsKey_iff.2 ⟨z, hz, hk⟩
  rw [h] at this
  cases this

theorem mem_insKey_weak {x z : β} {l : List β} (h : z ∈ insKey key x l) :
    z = x ∨ z ∈ l := by
  induction l with
  | nil => simpa [insKey] using h
  | cons y l ih =>
    simp only [insKey] at h
    split_ifs at h with h1 h2
    · simpa using h
    · rcases List.mem_cons.1 h with h | h
      · exact Or.inl h
      · exact Or.inr (List.mem_cons_of_mem _ h)
    · rcases List.mem_cons.1 h with h | h
      · exact Or.inr (h ▸ List.mem_cons_self ..)
      · rcases ih h with h | h
        · exact Or.inl h
        · exact Or.inr (List.mem_cons_of_mem _ h)

theorem self_mem_insKey {x : β} {l : List β} : x ∈ insKey key x l := by
  induction l with
  | nil => simp [insKey]
  | cons y l ih =>
    simp only [insKey]
    split_ifs <;> simp [ih]

theorem mem_insKey_of_mem {x z : β} {l : List β} (hz : z ∈ l)
    (hk : key z ≠ key x) : z ∈ insKey key x l := by
  induction l with
  | nil => cases hz
  | cons y l ih =>
    rcases List.mem_cons.1 hz with rfl | hz
    · simp only [insKey]
      split_ifs with h1 h2
      · simp
      · exact absurd h2.symm hk
      · simp
    · simp only [insKey]
      split_ifs <;> simp [hz, ih hz]

theorem sortedK_insKey {x : β} {l : List β} (h : SortedK key l) :
    SortedK key (insKey key x l) := by
  induction l with
  | nil => simp [insKey, SortedK]
  | cons y l ih =>
    have hy : ∀ z ∈ l, key y < key z := (List.pairwise_cons.1 h).1
    have hl : SortedK key l := (List.pairwise_cons.1 h).2
    simp only [insKey]
    split_ifs with h1 h2
    · exact List.pairwise_cons.2 ⟨by
        intro z hz
        rcases List.mem_cons.1 hz with rfl | hz
        · exact h1
        · exact lt_trans h1 (hy z hz), h⟩
    · exact List.pairwise_cons.2 ⟨fun z hz => h2 ▸ hy z hz, hl⟩
    · refine List.pairwise_cons.2 ⟨?_, ih hl⟩
      intro z hz
      rcases mem_insKey_weak hz with rfl | hz
      · omega
      · exact hy z hz

theorem lookupKey_insKey_self {x : β} {l : List β} :
    lookupKey key (key x) (insKey key x l) = some x := by
  induction l with
  | nil => simp [insKey, lookupKey_cons]
  | cons y l ih =>
    simp only [insKey]
    split_ifs with h1 h2
    · simp [lookupKey_cons]
    · simp [lookupKey_cons]
    · rw [lookupKey_cons, if_neg (by omega)]
      exact ih

theorem lookupKey_insKey_ne {x : β} {l : List β} {k : Nat} (hk : k ≠ key x) :
    lookupKey key k (insKey key x l) = lookupKey key k l := by
  induction l with
  | nil =>
    simp only [insKey]
    rw [lookupKey_cons, if_neg (fun h => hk h.symm)]
  | cons y l ih =>
    simp only [insKey]
    split_ifs with h1 h2
    · rw [lookupKey_cons, if_neg (by omega)]
    · rw [lookupKey_cons, lookupKey_cons]
      by_cases hy : key y = k
      · omega
      · rw [if_neg (by omega), if_neg hy]
    · rw [lookupKey_cons, lookupKey_cons]
      by_cases hy : key y = k
      · simp [hy]
      · rw [if_neg hy, if_neg hy]
        exact ih

theorem sortedK_lookup_of_mem {l : List β} {z : β} (hs : SortedK key l)
    (hz : z ∈ l) : lookupKey key (key z) l = some z := by
  induction l with
  | nil => cases hz
  | cons y l ih =>
    have hy : ∀ w ∈ l, key y < key w := (List.pairwise_cons.1 hs).1
    rcases List.mem_cons.1 hz with rfl | hz
    · simp [lookupKey_cons]
    · rw [lookupKey_cons, if_neg (by have := hy z hz; omega)]
      exact ih (List.pairwise_cons.1 hs).2 hz

theorem sortedK_ext {l1 l2 : List β} (h1 : SortedK key l1) (h2 : SortedK key l2)
    (h : ∀ k, lookupKey key k l1 = lookupKey key k l2) : l1 = l2 := by
  induction l1 generalizing l2 with
  | nil =>
    cases l2 with
    | nil => rfl
    | cons y l2 =>
      have := h (key y)
      rw [lookupKey_nil, lookupKey_cons, if_pos rfl] at this
      cases this
  | cons x l1 ih =>
    cases l2 with
    | nil =>
      have := h (key x)
      rw [lookupKey_nil, lookupKey_cons, if_pos rfl] at this
      cases this
    | cons y l2 =>
      have hx1 : ∀ w ∈ l1, key x < key w := (List.pairwise_cons.1 h1).1
      have hy2 : ∀ w ∈ l2, key y < key w := (List.pairwise_cons.1 h2).1
      have hkeq : key x = key y := by
        by_contra hne
        have ha1 : lookupKey key (key x) (x :: l1) = some x := by
          rw [lookupKey_cons, if_pos rfl]
        have ha2 : lookupKey key (key x) (y :: l2) = lookupKey key (key x) l2 := by
          rw [lookupKey_cons, if_neg (fun hh => hne hh.symm)]
        have hxl2 : x ∈ l2 :=
          (lookupKey_mem (l := l2) (by rw [← ha2, ← h (key x), ha1])).1
        have hb1 : lookupKey key (key y) (y :: l2) = some y := by
          rw [lookupKey_cons, if_pos rfl]
        have hb2 : lookupKey key (key y) (x :: l1) = lookupKey key (key y) l1 := by
          rw [lookupKey_cons, if_neg hne]
        have hyl1 : y ∈ l1 :=
          (lookupKey_mem (l := l1) (by rw [← hb2, h (key y), hb1])).1
        have := hx1 _ hyl1
        have := hy2 _ hxl2
        omega
      have hxy : x = y := by
        have hxx : lookupKey key (key x) (x :: l1) = some x := by
          rw [lookupKey_cons, if_pos rfl]
        have hyy : lookupKey key (key x) (y :: l2) = some y := by
          rw [lookupKey_cons, if_pos hkeq.symm]
        have : some x = some y := by rw [← hxx, h (key x), hyy]
        exact Option.some.inj this
      subst hxy
      refine congrArg (x :: ·) (ih (List.pairwise_cons.1 h1).2 (List.pairwise_cons.1 h2).2 ?_)
      intro k
      by_cases hk : k = key x
      · subst hk
        rw [lookupKey_eq_none (fun z hz => by have := hx1 z hz; omega),
          lookupKey_eq_none (fun z hz => by have := hy2 z hz; omega)]
      · have := h k
        rwa [lookupKey_cons, if_neg (fun hh => hk hh.symm),
          lookupKey_cons, if_neg (fun hh => hk hh.symm)] at this

theorem insKey_comm {x y : β} {l : List β} (hxy : key x ≠ key y)
    (hl : SortedK key l) :
    insKey key x (insKey key y l) = insKey key y (insKey key x l) := by
  refine sortedK_ext (sortedK_insKey (sortedK_insKey hl))
    (sortedK_insKey (sortedK_insKey hl)) ?_
  intro k
  by_cases hx : k = key x
  · subst hx
    rw [lookupKey_insKey_self, lookupKey_insKey_ne hxy, lookupKey_insKey_self]
  · by_cases hy : k = key y
    · subst hy
      rw [lookupKey_insKey_ne (Ne.symm hxy), lookupKey_insKey_self,
        lookupKey_insKey_self]
    · rw [lookupKey_insKey_ne hx, lookupKey_insKey_ne hy,
        lookupKey_insKey_ne hy, lookupKey_insKey_ne hx]

theorem eraseKey_sublist (k : Nat) (l : List β) : (eraseKey key k l).Sublist l := by
  induction l with
  | nil => simp [eraseKey]
  | cons y l ih =>
    simp only [eraseKey]
    split_ifs
    · exact List.sublist_cons_self ..
    · exact List.Sublist.cons₂ _ ih

theorem sortedK_eraseKey {k : Nat} {l : List β} (h : SortedK key l) :
    SortedK key (eraseKey key k l) :=
  List.Pairwise.sublist (eraseKey_sublist k l) h

theorem mem_eraseKey {k : Nat} {l : List β} {z : β} (h : z ∈ eraseKey key k l) :
    z ∈ l :=
  (eraseKey_sublist k l).mem h

theorem lookupKey_eraseKey_self {k : Nat} {l : List β} (h : SortedK key l) :
    lookupKey key k (eraseKey key k l) = none := by
  induction l with
  | nil => rfl
  | cons y l ih =>
    have hy : ∀ w ∈ l, key y < key w := (List.pairwise_cons.1 h).1
    simp only [eraseKey]
    split_ifs with h1
    · exact lookupKey_eq_none (fun z hz hk => by have := hy z hz; omega)
    · rw [lookupKey_cons, if_neg h1]
      exact ih (List.pairwise_cons.1 h).2

theorem lookupKey_eraseKey_ne {k k' : Nat} {l : List β} (hk : k' ≠ k)
    (h : SortedK key l) :
    lookupKey key k' (eraseKey key k l) = lookupKey key k' l := by
  induction l with
  | nil => rfl
  | cons y l ih =>
    simp only [eraseKey]
    split_ifs with h1
    · rw [lookupKey_cons, if_neg (h1 ▸ fun hh => hk hh.symm)]
    · rw [lookupKey_cons, lookupKey_cons]
      by_cases hy : key y = k'
      · simp [hy]
      · rw [if_neg hy, if_neg hy]
        exact ih (List.pairwise_cons.1 h).2

theorem eraseKey_length {k : Nat} {l : List β} (h : containsKey key k l = true) :
    (eraseKey key k l).length + 1 = l.length := by
  induction l with
  | nil => simp [containsKey, lookupKey] at h
  | cons y l ih =>
    simp only [eraseKey]
    split_ifs with h1
    · rfl
    · simp only [List.length_cons]
      rw [containsKey, lookupKey_cons, if_neg h1] at h
      rw [ih h]

theorem containsKey_insKey {x : β} {l : List β} {k : Nat} :
    containsKey key k (insKey key x l) = true ↔
      k = key x ∨ containsKey key k l = true := by
  by_cases hk : k = key x
  · subst hk
    simp [containsKey, lookupKey_insKey_self]
  · simp [containsKey, lookupKey_insKey_ne hk, hk]

theorem mem_nat_iff_containsKey {l : List Nat} {k : Nat} :
    k ∈ l ↔ containsKey (fun n => n) k l = true := by
  rw [containsKey_iff]
  constructor
  · exact fun h => ⟨k, h, rfl⟩
  · rintro ⟨z, hz, rfl⟩
    exact hz

theorem sortedK_foldl_insKey {γ : Type} (g : γ → β) {l : List γ} {acc : List β}
    (h : SortedK key acc) :
    SortedK key (l.foldl (fun a x => insKey key (g x) a) acc) := by
  induction l generalizing acc with
  | nil => exact h
  | cons x l ih => exact ih (sortedK_insKey h)

theorem containsKey_foldl_insKey {γ : Type} (g : γ → β) {l : List γ} {acc : List β}
    {k : Nat} :
    containsKey key k (l.foldl (fun a x => insKey key (g x) a) acc) = true ↔
      (∃ x ∈ l, key (g x) = k) ∨ containsKey key k acc = true := by
  induction l generalizing acc with
  | nil => simp
  | cons x l ih =>
    simp only [List.foldl_cons]
    rw [ih]
    rw [containsKey_insKey]
    constructor
    · rintro (⟨y, hy, rfl⟩ | hk | hacc)
      · exact Or.inl ⟨y, List.mem_cons_of_mem _ hy, rfl⟩
      · exact Or.inl ⟨x, List.mem_cons_self .., hk.symm⟩
      · exact Or.inr hacc
    · rintro (⟨y, hy, rfl⟩ | hacc)
      · rcases List.mem_cons.1 hy with rfl | hy
        · exact Or.inr (Or.inl rfl)
        · exact Or.inl ⟨y, hy, rfl⟩
      · exact Or.inr (Or.inr hacc)

theorem mem_foldl_insKey_weak {γ : Type} (g : γ → β) {l : List γ} {acc : List β}
    {z : β} (h : z ∈ l.foldl (fun a x => insKey key (g x) a) acc) :
    z ∈ acc ∨ ∃ x ∈ l, z = g x := by
  induction l generalizing acc with
  | nil => exact Or.inl h
  | cons x l ih =>
    rcases ih h with h | ⟨y, hy, rfl⟩
    · rcases mem_insKey_weak h with rfl | h
      · exact Or.inr ⟨x, List.mem_cons_self .., rfl⟩
      · exact Or.inl h
    · exact Or.inr ⟨y, List.mem_cons_of_mem _ hy, rfl⟩

theorem sortedK_filterMap_keys {ks : List Nat} (hs : SortedK (fun n => n) ks)
    (f : Nat → Option β) (hf : ∀ k v, f k = some v → key v = k) :
    SortedK key (ks.filterMap f) := by
  induction ks with
  | nil => simp [SortedK]
  | cons k ks ih =>
    have hk : ∀ j ∈ ks, k < j := (List.pairwise_cons.1 hs).1
    have htl := ih (List.pairwise_cons.1 hs).2
    cases hfk : f k with
    | none => simpa [List.filterMap_cons, hfk] using htl
    | some v =>
      simp only [List.filterMap_cons, hfk]
      refine List.pairwise_cons.2 ⟨?_, htl⟩
      intro w hw
      obtain ⟨j, hj, hjw⟩ := List.mem_filterMap.1 hw
      rw [hf k v hfk, hf j w hjw]
      exact hk j hj

theorem lookupKey_filterMap_keys {ks : List Nat} (hs : SortedK (fun n => n) ks)
    (f : Nat → Option β) (hf : ∀ k v, f k = some v → key v = k) (k : Nat) :
    lookupKey key k (ks.filterMap f) = if k ∈ ks then f k else none := by
  induction ks with
  | nil => simp [lookupKey_nil]
  | cons j ks ih =>
    have hj : ∀ i ∈ ks, j < i := (List.pairwise_cons.1 hs).1
    have htl := ih (List.pairwise_cons.1 hs).2
    cases hfj : f j with
    | none =>
      simp only [List.filterMap_cons, hfj]
      rw [htl]
      by_cases hk : k = j
      · subst hk
        rw [if_neg (fun h => by have := hj k h; omega), if_pos (List.mem_cons_self ..), hfj]
      · by_cases hks : k ∈ ks
        · rw [if_pos hks, if_pos (List.mem_cons_of_mem _ hks)]
        · rw [if_neg hks, if_neg (by simp [hk, hks])]
    | some v =>
      simp only [List.filterMap_cons, hfj]
      rw [lookupKey_cons, hf j v hfj]
      by_cases hk : j = k
      · subst hk
        rw [if_pos rfl, if_pos (List.mem_cons_self ..), hfj]
      · rw [if_neg hk, htl]
        by_cases hks : k ∈ ks
        · rw [if_pos hks, if_pos (List.mem_cons_of_mem _ hks)]
        · rw [if_neg hks, if_neg (by simp [hks]; omega)]

/-
Resolver lemmas: slot bookkeeping, the fast path, and the power-ordered
replay.
-/

theorem allSlotKeys_sorted (inputs : List StateSnapshot) :
    SortedK (fun n => n) (allSlotKeys inputs) := by
  suffices h : ∀ (acc : List Nat), SortedK (fun n => n) acc →
      SortedK (fun n => n)
        (inputs.foldl (fun a s => s.foldl (fun a2 e => insKey (fun n => n) (slotOf e) a2) a) acc) by
    exact h [] (by simp [SortedK])
  induction inputs with
  | nil => exact fun acc h => h
  | cons s inputs ih =>
    intro acc h
    exact ih _ (@sortedK_foldl_insKey Nat (fun n => n) Event slotOf _ _ h)

theorem mem_allSlotKeys {inputs : List StateSnapshot} {k : Nat} :
    k ∈ allSlotKeys inputs ↔ ∃ s ∈ inputs, ∃ e ∈ s, slotOf e = k := by
  rw [mem_nat_iff_containsKey]
  suffices h : ∀ (acc : List Nat),
      containsKey (fun n => n) k
        (inputs.foldl (fun a s => s.foldl (fun a2 e => insKey (fun n => n) (slotOf e) a2) a) acc) = true ↔
      (∃ s ∈ inputs, ∃ e ∈ s, slotOf e = k) ∨ containsKey (fun n => n) k acc = true by
    unfold allSlotKeys
    rw [h []]
    simp [containsKey, lookupKey_nil]
  induction inputs with
  | nil => simp
  | cons s inputs ih =>
    intro acc
    simp only [List.foldl_cons]
    rw [ih]
    rw [@containsKey_foldl_insKey Nat (fun n => n) Event slotOf _ _ _]
    constructor
    · rintro (h | ⟨e, he, hk⟩ | hacc)
      · obtain ⟨t, ht, e, he, hk⟩ := h
        exact Or.inl ⟨t, List.mem_cons_of_mem _ ht, e, he, hk⟩
      · exact Or.inl ⟨s, List.mem_cons_self .., e, he, hk⟩
      · exact Or.inr hacc
    · rintro (⟨t, ht, e, he, hk⟩ | hacc)
      · rcases List.mem_cons.1 ht with rfl | ht
        · exact Or.inr (Or.inl ⟨e, he, hk⟩)
        · exact Or.inl ⟨t, ht, e, he, hk⟩
      · exact Or.inr (Or.inr hacc)

theorem mem_slotValues {inputs : List StateSnapshot} {k : Nat} {v : Event} :
    v ∈ slotValues inputs k ↔ ∃ s ∈ inputs, lookupSlot s k = some v := by
  simp [slotValues]

theorem slotAgreed_some_mem {inputs : List StateSnapshot} {k : Nat} {v : Event}
    (h : slotAgreed inputs k = some v) : v ∈ slotValues inputs k := by
  unfold slotAgreed at h
  split at h
  · exact absurd h (by simp)
  · rename_i w ws heq
    split_ifs at h with hall
    cases Option.some.inj h
    rw [heq]
    exact List.mem_cons_self ..

theorem slotAgreed_key {inputs : List StateSnapshot} {k : Nat} {v : Event}
    (h : slotAgreed inputs k = some v) : slotOf v = k := by
  obtain ⟨s, hs, hl⟩ := mem_slotValues.1 (slotAgreed_some_mem h)
  exact (lookupKey_mem hl).2

theorem unconflicted_sorted (inputs : List StateSnapshot) :
    SortedK slotOf (unconflicted inputs) :=
  sortedK_filterMap_keys (allSlotKeys_sorted inputs) _
    (fun k v h => slotAgreed_key h)

theorem lookup_unconflicted (inputs : List StateSnapshot) (k : Nat) :
    lookupKey slotOf k (unconflicted inputs) =
      if k ∈ allSlotKeys inputs then slotAgreed inputs k else none :=
  lookupKey_filterMap_keys (allSlotKeys_sorted inputs) _
    (fun k v h => slotAgreed_key h) k

theorem snapshotUnion_sorted (inputs : List StateSnapshot) :
    SortedK slotOf (snapshotUnion inputs) := by
  suffices h : ∀ (acc : StateSnapshot), SortedK slotOf acc →
      SortedK slotOf
        (inputs.foldl (fun a s => s.foldl (fun a2 e => insKey slotOf e a2) a) acc) by
    exact h [] (by simp [SortedK])
  induction inputs with
  | nil => exact fun acc h => h
  | cons s inputs ih =>
    intro acc h
    exact ih _ (@sortedK_foldl_insKey Event slotOf Event (fun e => e) _ _ h)

theorem mem_snapshotUnion {inputs : List StateSnapshot} {v : Event}
    (h : v ∈ snapshotUnion inputs) : ∃ s ∈ inputs, v ∈ s := by
  suffices hgen : ∀ (acc : StateSnapshot),
      v ∈ inputs.foldl (fun a s => s.foldl (fun a2 e => insKey slotOf e a2) a) acc →
      v ∈ acc ∨ ∃ s ∈ inputs, v ∈ s by
    rcases hgen [] h with h | h
    · cases h
    · exact h
  clear h
  induction inputs with
  | nil => exact fun acc h => Or.inl h
  | cons s inputs ih =>
    intro acc h
    simp only [List.foldl_cons] at h
    rcases ih (s.foldl (fun a2 e => insKey slotOf e a2) acc) h with h | ⟨t, ht, hv⟩
    · rcases @mem_foldl_insKey_weak Event slotOf Event (fun e => e) _ _ _ h with h | ⟨e, he, rfl⟩
      · exact Or.inl h
      · exact Or.inr ⟨s, List.mem_cons_self .., he⟩
    · exact Or.inr ⟨t, List.mem_cons_of_mem _ ht, hv⟩

theorem containsKey_snapshotUnion {inputs : List StateSnapshot} {k : Nat} :
    containsKey slotOf k (snapshotUnion inputs) = true ↔
      ∃ s ∈ inputs, ∃ e ∈ s, slotOf e = k := by
  suffices h : ∀ (acc : StateSnapshot),
      containsKey slotOf k
        (inputs.foldl (fun a s => s.foldl (fun a2 e => insKey slotOf e a2) a) acc) = true ↔
      (∃ s ∈ inputs, ∃ e ∈ s, slotOf e = k) ∨ containsKey slotOf k acc = true by
    unfold snapshotUnion
    rw [h []]
    simp [containsKey, lookupKey_nil]
  induction inputs with
  | nil => simp
  | cons s inputs ih =>
    intro acc
    simp only [List.foldl_cons]
    rw [ih]
    rw [@containsKey_foldl_insKey Event slotOf Event (fun e => e) _ _ _]
    constructor
    · rintro (h | ⟨e, he, hk⟩ | hacc)
      · obtain ⟨t, ht, e, he, hk⟩ := h
        exact Or.inl ⟨t, List.mem_cons_of_mem _ ht, e, he, hk⟩
      · exact Or.inl ⟨s, List.mem_cons_self .., e, he, hk⟩
      · exact Or.inr hacc
    · rintro (⟨t, ht, e, he, hk⟩ | hacc)
      · rcases List.mem_cons.1 ht with rfl | ht
        · exact Or.inr (Or.inl ⟨e, he, hk⟩)
        · exact Or.inl ⟨t, ht, e, he, hk⟩
      · exact Or.inr (Or.inr hacc)

theorem slotAgreed_eq_head {inputs : List StateSnapshot} {k : Nat} {w : Event}
    {ws : List Event} (h : slotValues inputs k = w :: ws)
    (hall : ∀ u ∈ ws, u = w) : slotAgreed inputs k = some w := by
  unfold slotAgreed
  rw [h]
  show (if ws.all (fun u => decide (u = w)) = true then some w else none) = some w
  rw [if_pos]
  rw [List.all_eq_true]
  intro u hu
  simpa using hall u hu

/-- C7: when no `(type, state_key)` slot conflicts across the input
snapshots, the candidate set is empty, the resolver short-circuits, and
its output is exactly the direct union of the inputs. -/
theorem resolver_fast_path_union (store : List Event) (inputs : List StateSnapshot)
    (hs : ∀ s ∈ inputs, SortedK slotOf s)
    (hnc : ∀ k v w, v ∈ slotValues inputs k → w ∈ slotValues inputs k → v = w) :
    conflictedEvents inputs = [] ∧
    resolve store inputs = some (unconflicted inputs) ∧
    unconflicted inputs = snapshotUnion inputs := by
  have hagree : ∀ k ∈ allSlotKeys inputs, ∃ v, slotAgreed inputs k = some v := by
    intro k hk
    obtain ⟨s, hsin, e, he, hek⟩ := mem_allSlotKeys.1 hk
    have hls : (lookupKey slotOf k s).isSome = true :=
      lookupKey_isSome_iff.2 ⟨e, he, hek⟩
    obtain ⟨w, hw⟩ := Option.isSome_iff_exists.1 hls
    have hwv : w ∈ slotValues inputs k := mem_slotValues.2 ⟨s, hsin, hw⟩
    cases hv : slotValues inputs k with
    | nil => rw [hv] at hwv; cases hwv
    | cons u us =>
      refine ⟨u, slotAgreed_eq_head hv ?_⟩
      intro x hx
      exact hnc k x u (hv ▸ List.mem_cons_of_mem _ hx) (hv ▸ List.mem_cons_self ..)
  have hconfl : conflictedEvents inputs = [] := by
    unfold conflictedEvents
    have hfm : ((allSlotKeys inputs).flatMap (fun k =>
        if (slotAgreed inputs k).isNone then slotValues inputs k else [])) = [] := by
      rw [List.flatMap_eq_nil_iff]
      intro k hk
      obtain ⟨v, hv⟩ := hagree k hk
      rw [if_neg (by simp [hv])]
    rw [hfm]
    rfl
  have hres : resolve store inputs = some (unconflicted inputs) := by
    simp [resolve, hconfl]
  refine ⟨hconfl, hres, ?_⟩
  refine sortedK_ext (unconflicted_sorted inputs) (snapshotUnion_sorted inputs) ?_
  intro k
  rw [lookup_unconflicted]
  by_cases hk : k ∈ allSlotKeys inputs
  · rw [if_pos hk]
    obtain ⟨v, hv⟩ := hagree k hk
    rw [hv]
    have hcu : containsKey slotOf k (snapshotUnion inputs) = true := by
      rw [containsKey_snapshotUnion]
      exact mem_allSlotKeys.1 hk
    obtain ⟨w, hw⟩ := Option.isSome_iff_exists.1 hcu
    rw [hw]
    obtain ⟨hwu, hwk⟩ := lookupKey_mem hw
    obtain ⟨s, hsin, hws⟩ := mem_snapshotUnion hwu
    have hlw : lookupKey slotOf k s = some w :=
      hwk ▸ sortedK_lookup_of_mem (hs s hsin) hws
    have hwval : w ∈ slotValues inputs k := mem_slotValues.2 ⟨s, hsin, hlw⟩
    have hvval : v ∈ slotValues inputs k := slotAgreed_some_mem hv
    rw [hnc k v w hvval hwval]
  · rw [if_neg hk]
    have : containsKey slotOf k (snapshotUnion inputs) = false := by
      by_contra hcc
      have := containsKey_snapshotUnion.1 (by
        cases hcu : containsKey slotOf k (snapshotUnion inputs)
        · exact absurd hcu hcc
        · rfl)
      exact hk (mem_allSlotKeys.2 this)
    rw [containsKey] at this
    exact (Option.not_isSome_iff_eq_none.1 (by simp [this])).symm

theorem candLE_trans (base : StateSnapshot) (a b c : Event)
    (h1 : candLE base a b = true) (h2 : candLE base b c = true) :
    candLE base a c = true := by
  simp only [candLE, Bool.or_eq_true, Bool.and_eq_true, decide_eq_true_eq] at h1 h2 ⊢
  omega

theorem candLE_total (base : StateSnapshot) (a b : Event) :
    (candLE base a b || candLE base b a) = true := by
  simp only [candLE, Bool.or_eq_true, Bool.and_eq_true, decide_eq_true_eq]
  omega

theorem pickMin_cons_le {le : α → α → Bool} {x y : α} {l : List α}
    (h : le x y = true) :
    pickMin le x (y :: l) = ((pickMin le x l).1, y :: (pickMin le x l).2) := by
  simp [pickMin, h]

theorem pickMin_cons_gt {le : α → α → Bool} {x y : α} {l : List α}
    (h : le x y = false) :
    pickMin le x (y :: l) = ((pickMin le y l).1, x :: (pickMin le y l).2) := by
  simp [pickMin, h]

theorem pickMin_perm (le : α → α → Bool) : ∀ (l : List α) (x : α),
    ((pickMin le x l).1 :: (pickMin le x l).2).Perm (x :: l) := by
  intro l
  induction l with
  | nil => intro x; exact List.Perm.refl _
  | cons y l ih =>
    intro x
    cases hxy : le x y with
    | true =>
      rw [pickMin_cons_le hxy]
      exact ((List.Perm.swap y _ _).trans ((ih x).cons y)).trans
        (List.Perm.swap x y l)
    | false =>
      rw [pickMin_cons_gt hxy]
      exact (List.Perm.swap x _ _).trans ((ih y).cons x)

theorem pickMin_min (le : α → α → Bool)
    (htrans : ∀ a b c, le a b = true → le b c = true → le a c = true)
    (htotal : ∀ a b, (le a b || le b a) = true) :
    ∀ (l : List α) (x b : α), b ∈ x :: l → le (pickMin le x l).1 b = true := by
  intro l
  induction l with
  | nil =>
    intro x b hb
    rcases List.mem_cons.1 hb with hbx | hb2
    · rw [hbx]
      have h := htotal x x
      rw [Bool.or_self] at h
      exact h
    · cases hb2
  | cons y l ih =>
    intro x b hb
    cases hxy : le x y with
    | true =>
      rw [pickMin_cons_le hxy]
      show le (pickMin le x l).1 b = true
      rcases List.mem_cons.1 hb with hbx | hb2
      · rw [hbx]
        exact ih x x (List.mem_cons_self x l)
      · rcases List.mem_cons.1 hb2 with hby | hb3
        · rw [hby]
          exact htrans _ x y (ih x x (List.mem_cons_self x l)) hxy
        · exact ih x b (List.mem_cons_of_mem _ hb3)
    | false =>
      have hyx : le y x = true := by
        have h := htotal x y
        rw [hxy, Bool.false_or] at h
        exact h
      rw [pickMin_cons_gt hxy]
      show le (pickMin le y l).1 b = true
      rcases List.mem_cons.1 hb with hbx | hb2
      · rw [hbx]
        exact htrans _ y x (ih y y (List.mem_cons_self y l)) hyx
      · rcases List.mem_cons.1 hb2 with hby | hb3
        · rw [hby]
          exact ih y y (List.mem_cons_self y l)
        · exact ih y b (List.mem_cons_of_mem _ hb3)

theorem iterSort_perm : ∀ (fuel : Nat) (s : StateSnapshot) (l : List Event),
    l.length ≤ fuel → (iterSort fuel s l).Perm l := by
  intro fuel
  induction fuel with
  | zero =>
    intro s l hl
    have hnil : l = [] := List.length_eq_zero.1 (by omega)
    rw [hnil]
    exact List.Perm.refl _
  | succ fuel ih =>
    intro s l hl
    cases l with
    | nil => exact List.Perm.refl _
    | cons c cs =>
      have hperm := pickMin_perm (candLE s) cs c
      have hlen : (pickMin (candLE s) c cs).2.length ≤ fuel := by
        have h1 := hperm.length_eq
        simp only [List.length_cons] at h1 hl
        omega
      show ((pickMin (candLE s) c cs).1 ::
        iterSort fuel (powerContext s (pickMin (candLE s) c cs).1)
          (pickMin (candLE s) c cs).2).Perm (c :: cs)
      exact ((ih _ _ hlen).cons _).trans hperm

theorem iterSort_ordered : ∀ (fuel : Nat) (s : StateSnapshot) (l : List Event),
    l.length ≤ fuel →
    ∀ (pre : List Event) (m : Event) (suf : List Event),
      iterSort fuel s l = pre ++ m :: suf →
      ∀ b ∈ suf, candLE (pre.foldl powerContext s) m b = true := by
  intro fuel
  induction fuel with
  | zero =>
    intro s l hl pre m suf heq b hb
    have hnil : l = [] := List.length_eq_zero.1 (by omega)
    rw [hnil] at heq
    have heq2 : ([] : List Event) = pre ++ m :: suf := heq
    cases pre <;> simp at heq2
  | succ fuel ih =>
    intro s l hl pre m suf heq b hb
    cases l with
    | nil =>
      have heq2 : ([] : List Event) = pre ++ m :: suf := heq
      cases pre <;> simp at heq2
    | cons c cs =>
      have hperm := pickMin_perm (candLE s) cs c
      have hlen : (pickMin (candLE s) c cs).2.length ≤ fuel := by
        have h1 := hperm.length_eq
        simp only [List.length_cons] at h1 hl
        omega
      have heq2 : (pickMin (candLE s) c cs).1 ::
          iterSort fuel (powerContext s (pickMin (candLE s) c cs).1)
            (pickMin (candLE s) c cs).2 = pre ++ m :: suf := heq
      cases pre with
      | nil =>
        rw [List.nil_append] at heq2
        injection heq2 with hm htail
        rw [← hm]
        show candLE s (pickMin (candLE s) c cs).1 b = true
        rw [← htail] at hb
        have hbrest : b ∈ (pickMin (candLE s) c cs).2 :=
          (iterSort_perm fuel _ _ hlen).mem_iff.1 hb
        have hbcs : b ∈ c :: cs :=
          hperm.mem_iff.1 (List.mem_cons_of_mem _ hbrest)
        exact pickMin_min (candLE s) (candLE_trans s) (candLE_total s) cs c b hbcs
      | cons p pre2 =>
        rw [List.cons_append] at heq2
        injection heq2 with hp htail
        have hres := ih (powerContext s (pickMin (candLE s) c cs).1)
          (pickMin (candLE s) c cs).2 hlen pre2 m suf htail b hb
        show candLE ((p :: pre2).foldl powerContext s) m b = true
        rw [List.foldl_cons, ← hp]
        exact hres

/-- C10: with a nonempty candidate set (conflicted events plus
auth-difference), the resolver's output is exactly the replay, from the
unconflicted base, of the candidate set in the iteratively evaluated
power order; the order is a permutation of the candidate set, and every
element of it precedes each later element under the power comparison —
descending sender power level read at the time of the event (in the
power context holding every earlier-placed power-level event, so
power-level events are resolved before the events they gate), then
ascending origin_server_ts, then ascending event_id as the final
tiebreak. -/
theorem resolver_power_ordering (store : List Event) (inputs : List StateSnapshot)
    (diff : List Event)
    (hne : conflictedEvents inputs ≠ [])
    (hdiff : authDifference store inputs (conflictedEvents inputs) = some diff) :
    resolve store inputs =
      some (replay (unconflicted inputs)
        (iterSort
          ((conflictedEvents inputs ++ diff).foldl (fun acc e => insKey eid e acc) []).length
          (unconflicted inputs)
          ((conflictedEvents inputs ++ diff).foldl (fun acc e => insKey eid e acc) []))) ∧
    (iterSort
        ((conflictedEvents inputs ++ diff).foldl (fun acc e => insKey eid e acc) []).length
        (unconflicted inputs)
        ((conflictedEvents inputs ++ diff).foldl (fun acc e => insKey eid e acc) [])).Perm
      ((conflictedEvents inputs ++ diff).foldl (fun acc e => insKey eid e acc) []) ∧
    ∀ (pre : List Event) (m : Event) (suf : List Event),
      iterSort
          ((conflictedEvents inputs ++ diff).foldl (fun acc e => insKey eid e acc) []).length
          (unconflicted inputs)
          ((conflictedEvents inputs ++ diff).foldl (fun acc e => insKey eid e acc) []) =
        pre ++ m :: suf →
      ∀ b ∈ suf, candLE (pre.foldl powerContext (unconflicted inputs)) m b = true := by
  refine ⟨?_, ?_, ?_⟩
  · simp [resolve, hne, hdiff]
  · exact iterSort_perm _ _ _ (le_refl _)
  · exact iterSort_ordered _ _ _ (le_refl _)

/-- C7 witness: on the concrete conflict-free snapshots the resolver
returns the direct union with an empty candidate set. -/
theorem resolver_fast_path_union_witness :
    conflictedEvents inputsW7 = [] ∧
    resolve [] inputsW7 = some (unconflicted inputsW7) ∧
    unconflicted inputsW7 = snapshotUnion inputsW7 := by
  apply resolver_fast_path_union
  · intro s hs
    unfold SortedK
    fin_cases hs <;> decide
  · intro k v w hv hw
    obtain ⟨s, hsin, hls⟩ := mem_slotValues.1 hv
    obtain ⟨t, htin, hlt⟩ := mem_slotValues.1 hw
    obtain ⟨hvs, hvk⟩ := lookupKey_mem hls
    obtain ⟨hws, hwk⟩ := lookupKey_mem hlt
    have hv2 : v = evA ∨ v = evB := by
      simp only [inputsW7, List.mem_cons, List.not_mem_nil, or_false] at hsin
      rcases hsin with rfl | rfl
      · exact Or.inl (by simpa using hvs)
      · simpa using hvs
    have hw2 : w = evA ∨ w = evB := by
      simp only [inputsW7, List.mem_cons, List.not_mem_nil, or_false] at htin
      rcases htin with rfl | rfl
      · exact Or.inl (by simpa using hws)
      · simpa using hws
    rcases hv2 with rfl | rfl <;> rcases hw2 with rfl | rfl
    · rfl
    · exact absurd (hwk.trans hvk.symm) (by decide)
    · exact absurd (hwk.trans hvk.symm) (by decide)
    · rfl

/-- C10 witness: on the concrete conflicting snapshots the resolver
replays, from the unconflicted base, the four candidates in the
iteratively evaluated power order (equal power, so ascending timestamps;
the power-level event C is placed before the events D and E it gates,
and from then on governs their sender's power). -/
theorem resolver_power_ordering_witness :
    resolve storeW10 inputsW10 =
      some (replay (unconflicted inputsW10)
        [{ evB with depth := 2 }, { evC with depth := 3 }, evD, evE]) := by
  have main := resolver_power_ordering storeW10 inputsW10 diffW10
    (by decide) (by decide)
  rw [main.1]
  have hsorted : iterSort
      ((conflictedEvents inputsW10 ++ diffW10).foldl (fun acc e => insKey eid e acc) []).length
      (unconflicted inputsW10)
      ((conflictedEvents inputsW10 ++ diffW10).foldl (fun acc e => insKey eid e acc) []) =
      [{ evB with depth := 2 }, { evC with depth := 3 }, evD, evE] := by decide
  rw [hsorted]

/-
Totality and range of the resolver and the frontier-state computation
over a well-formed store.
-/

theorem le_foldr_max {l : List Nat} {a : Nat} (h : a ∈ l) :
    a ≤ l.foldr max 0 := by
  induction l with
  | nil => cases h
  | cons b l ih =>
    rcases List.mem_cons.1 h with rfl | h
    · exact le_max_left ..
    · exact le_trans (ih h) (le_max_right ..)

theorem missingDeps_nil_iff {st : List Event} {e : Event} :
    missingDeps st e = [] ↔ ∀ i ∈ deps e, containsKey eid i st = true := by
  simp [missingDeps, List.filter_eq_nil_iff]

theorem seqOption_map_total {γ : Type} {f : γ → Option α} {ids : List γ}
    (h : ∀ i ∈ ids, (f i).isSome = true) :
    ∃ out, seqOption (ids.map f) = some out ∧
      (∀ v ∈ out, ∃ i ∈ ids, f i = some v) := by
  induction ids with
  | nil => exact ⟨[], rfl, by simp⟩
  | cons i ids ih =>
    obtain ⟨a, ha⟩ := Option.isSome_iff_exists.1 (h i (List.mem_cons_self ..))
    obtain ⟨out, hout, hmem⟩ := ih (fun j hj => h j (List.mem_cons_of_mem _ hj))
    refine ⟨a :: out, ?_, ?_⟩
    · simp [seqOption, ha, hout]
    · intro v hv
      rcases List.mem_cons.1 hv with rfl | hv
      · exact ⟨i, List.mem_cons_self .., ha⟩
      · obtain ⟨j, hj, hjv⟩ := hmem v hv
        exact ⟨j, List.mem_cons_of_mem _ hj, hjv⟩

theorem seqOption_mem {l : List (Option α)} {out : List α}
    (h : seqOption l = some out) : ∀ v ∈ out, some v ∈ l := by
  induction l generalizing out with
  | nil =>
    cases Option.some.inj h
    intro v hv
    cases hv
  | cons x l ih =>
    cases x with
    | none => cases h
    | some a =>
      simp only [seqOption] at h
      cases hso : seqOption l with
      | none => rw [hso] at h; cases h
      | some t =>
        rw [hso] at h
        cases Option.some.inj h
        intro v hv
        rcases List.mem_cons.1 hv with rfl | hv
        · exact List.mem_cons_self ..
        · exact List.mem_cons_of_mem _ (ih hso v hv)

theorem mem_unconflicted {inputs : List StateSnapshot} {v : Event}
    (h : v ∈ unconflicted inputs) : ∃ s ∈ inputs, v ∈ s := by
  obtain ⟨k, hk, hv⟩ := List.mem_filterMap.1 h
  obtain ⟨s, hs, hl⟩ := mem_slotValues.1 (slotAgreed_some_mem hv)
  exact ⟨s, hs, (lookupKey_mem hl).1⟩

theorem mem_conflictedEvents {inputs : List StateSnapshot} {v : Event}
    (h : v ∈ conflictedEvents inputs) : ∃ s ∈ inputs, v ∈ s := by
  unfold conflictedEvents at h
  rcases @mem_foldl_insKey_weak Event eid Event (fun e => e) _ _ _ h with h | ⟨e, he, rfl⟩
  · cases h
  · obtain ⟨k, hk, hv⟩ := List.mem_flatMap.1 he
    split_ifs at hv
    · obtain ⟨s, hs, hl⟩ := mem_slotValues.1 hv
      exact ⟨s, hs, (lookupKey_mem hl).1⟩
    · cases hv

theorem mem_applySlot {s : StateSnapshot} {e v : Event} (h : v ∈ applySlot s e) :
    v = e ∨ v ∈ s := by
  unfold applySlot at h
  cases hsk : e.state_key with
  | none => rw [hsk] at h; exact Or.inr h
  | some k =>
    rw [hsk] at h
    exact mem_insKey_weak h

theorem mem_replay {base : StateSnapshot} {cands : List Event} {v : Event}
    (h : v ∈ replay base cands) : v ∈ base ∨ v ∈ cands := by
  induction cands generalizing base with
  | nil => exact Or.inl h
  | cons c cands ih =>
    rcases @ih (if is_authorized c base then applySlot base c else base) h with h | h
    · split_ifs at h
      · rcases mem_applySlot h with rfl | h
        · exact Or.inr (List.mem_cons_self ..)
        · exact Or.inl h
      · exact Or.inl h
    · exact Or.inr (List.mem_cons_of_mem _ h)

theorem authDifference_total {store : List Event} {inputs : List StateSnapshot}
    {confl : List Event}
    (hc : ∀ v ∈ confl, ∀ i ∈ v.auth_events, containsKey eid i store = true) :
    ∃ diff, authDifference store inputs confl = some diff ∧
      ∀ v ∈ diff, v ∈ store := by
  unfold authDifference
  have hids : ∀ i ∈ ((confl.flatMap (fun e => e.auth_events)).filter
      (fun i => !(inAllInputs inputs i))).foldl
        (fun acc i => insKey (fun n => n) i acc) [],
      (lookupEv store i).isSome = true := by
    intro i hi
    rcases @mem_foldl_insKey_weak Nat (fun n => n) Nat (fun j => j) _ _ _ hi with hi | ⟨j, hj, rfl⟩
    · cases hi
    · have hj2 := List.mem_filter.1 hj
      obtain ⟨v, hv, hiv⟩ := List.mem_flatMap.1 hj2.1
      exact hc v hv i hiv
  obtain ⟨out, hout, hmem⟩ := seqOption_map_total hids
  refine ⟨out, hout, ?_⟩
  intro v hv
  obtain ⟨i, hi, hiv⟩ := hmem v hv
  exact (lookupKey_mem hiv).1

theorem resolve_total {store : List Event} {inputs : List StateSnapshot}
    (hStore : StoreOK store) (hin : ∀ s ∈ inputs, ∀ v ∈ s, v ∈ store) :
    ∃ out, resolve store inputs = some out ∧ ∀ v ∈ out, v ∈ store := by
  by_cases hc : conflictedEvents inputs = []
  · refine ⟨unconflicted inputs, by simp [resolve, hc], ?_⟩
    intro v hv
    obtain ⟨s, hs, hvs⟩ := mem_unconflicted hv
    exact hin s hs v hvs
  · have hcdeps : ∀ v ∈ conflictedEvents inputs, ∀ i ∈ v.auth_events,
        containsKey eid i store = true := by
      intro v hv i hi
      obtain ⟨s, hs, hvs⟩ := mem_conflictedEvents hv
      exact hStore.2.1 v (hin s hs v hvs) i (List.mem_append_right _ hi)
    obtain ⟨diff, hdiff, hdiffmem⟩ := @authDifference_total store inputs _ hcdeps
    refine ⟨replay (unconflicted inputs) (iterSort
      ((conflictedEvents inputs ++ diff).foldl (fun acc e => insKey eid e acc) []).length
      (unconflicted inputs)
      ((conflictedEvents inputs ++ diff).foldl (fun acc e => insKey eid e acc) [])),
      by simp [resolve, hc, hdiff], ?_⟩
    intro v hv
    rcases mem_replay hv with hv | hv
    · obtain ⟨s, hs, hvs⟩ := mem_unconflicted hv
      exact hin s hs v hvs
    · have hv2 := (iterSort_perm _ _ _ (le_refl _)).mem_iff.1 hv
      rcases @mem_foldl_insKey_weak Event eid Event (fun e => e) _ _ _ hv2 with hv2 | ⟨e, he, rfl⟩
      · cases hv2
      · rcases List.mem_append.1 he with he | he
        · obtain ⟨s, hs, hvs⟩ := mem_conflictedEvents he
          exact hin s hs _ hvs
        · exact hdiffmem _ he

theorem depth_le_maxDepth {store : List Event} {e : Event} (h : e ∈ store) :
    e.depth ≤ maxDepth store := by
  unfold maxDepth
  induction store with
  | nil => cases h
  | cons f l ih =>
    rcases List.mem_cons.1 h with rfl | h
    · exact le_max_left ..
    · exact le_trans (ih h) (le_max_right ..)

theorem stateAfter_total {store : List Event} (hStore : StoreOK store) :
    ∀ (fuel : Nat) (e : Event), e ∈ store → e.depth ≤ fuel →
    ∃ out, stateAfter store fuel e = some out ∧ ∀ v ∈ out, v ∈ store := by
  intro fuel
  induction fuel with
  | zero =>
    intro e he hd
    have := hStore.2.2.1 e he
    omega
  | succ fuel ih =>
    intro e he hd
    have hp : ∀ i ∈ e.prev_events, (lookupEv store i).isSome = true := by
      intro i hi
      have := hStore.2.1 e he i (List.mem_append_left _ hi)
      simpa [containsKey] using this
    obtain ⟨parents, hpar, hparmem⟩ := seqOption_map_total hp
    have hq : ∀ p ∈ parents, (stateAfter store fuel p).isSome = true := by
      intro p hpmem
      obtain ⟨i, hi, hip⟩ := hparmem p hpmem
      have hps : p ∈ store := (lookupKey_mem hip).1
      have hpd : p.depth < e.depth := hStore.2.2.2 e he i hi p hip
      obtain ⟨out, hout, -⟩ := ih p hps (by omega)
      simp [hout]
    obtain ⟨states, hst, hstmem⟩ := seqOption_map_total hq
    have hstrange : ∀ s ∈ states, ∀ v ∈ s, v ∈ store := by
      intro s hs v hv
      obtain ⟨p, hpmem, hps⟩ := hstmem s hs
      obtain ⟨i, hi, hip⟩ := hparmem p hpmem
      have hpstore : p ∈ store := (lookupKey_mem hip).1
      have hpd : p.depth < e.depth := hStore.2.2.2 e he i hi p hip
      obtain ⟨out, hout, houtmem⟩ := ih p hpstore (by omega)
      rw [hout] at hps
      cases Option.some.inj hps
      exact houtmem v hv
    obtain ⟨rout, hrout, hroutmem⟩ := resolve_total hStore hstrange
    refine ⟨applySlot rout e, ?_, ?_⟩
    · simp only [stateAfter, hpar, hst, hrout]
    · intro v hv
      rcases mem_applySlot hv with rfl | hv
      · exact he
      · exact hroutmem v hv

theorem stateAtIds_total {store : List Event} (hStore : StoreOK store)
    {f : List Nat} (hf : ∀ i ∈ f, containsKey eid i store = true)
    {fuel : Nat} (hfuel : maxDepth store ≤ fuel) :
    ∃ out, stateAtIds store fuel f = some out ∧ ∀ v ∈ out, v ∈ store := by
  have hl : ∀ i ∈ f, (lookupEv store i).isSome = true := by
    intro i hi
    simpa [containsKey] using hf i hi
  obtain ⟨evs, hevs, hevsmem⟩ := seqOption_map_total hl
  have hq : ∀ p ∈ evs, (stateAfter store fuel p).isSome = true := by
    intro p hp
    obtain ⟨i, hi, hip⟩ := hevsmem p hp
    have hps : p ∈ store := (lookupKey_mem hip).1
    obtain ⟨out, hout, -⟩ := stateAfter_total hStore fuel p hps
      (le_trans (depth_le_maxDepth hps) hfuel)
    simp [hout]
  obtain ⟨states, hst, hstmem⟩ := seqOption_map_total hq
  have hstrange : ∀ s ∈ states, ∀ v ∈ s, v ∈ store := by
    intro s hs v hv
    obtain ⟨p, hpmem, hps⟩ := hstmem s hs
    obtain ⟨i, hi, hip⟩ := hevsmem p hpmem
    have hpstore : p ∈ store := (lookupKey_mem hip).1
    obtain ⟨out, hout, houtmem⟩ := stateAfter_total hStore fuel p hpstore
      (le_trans (depth_le_maxDepth hpstore) hfuel)
    rw [hout] at hps
    cases Option.some.inj hps
    exact houtmem v hv
  obtain ⟨rout, hrout, hroutmem⟩ := resolve_total hStore hstrange
  refine ⟨rout, ?_, hroutmem⟩
  simp only [stateAtIds, hevs, hst, hrout]

theorem stateAtFrontier_total {store : List Event} (hStore : StoreOK store)
    {f : List Nat} (hf : ∀ i ∈ f, containsKey eid i store = true) :
    ∃ out, stateAtFrontier store f = some out ∧ ∀ v ∈ out, v ∈ store :=
  stateAtIds_total hStore hf (by omega)

theorem sortedK_inj {β : Type} {key : β → Nat} {l : List β} {x y : β}
    (hs : SortedK key l) (hx : x ∈ l) (hy : y ∈ l) (hk : key x = key y) :
    x = y := by
  have h1 := sortedK_lookup_of_mem hs hx
  have h2 := sortedK_lookup_of_mem hs hy
  rw [hk] at h1
  rw [h1] at h2
  exact Option.some.inj h2

theorem containsKey_of_mem {β : Type} {key : β → Nat} {l : List β} {z : β}
    (hz : z ∈ l) : containsKey key (key z) l = true :=
  containsKey_iff.2 ⟨z, hz, rfl⟩

theorem mem_eraseKey_of_ne {β : Type} {key : β → Nat} {l : List β} {z : β}
    {k : Nat} (hz : z ∈ l) (hk : key z ≠ k) : z ∈ eraseKey key k l := by
  induction l with
  | nil => cases hz
  | cons y l ih =>
    simp only [eraseKey]
    split_ifs with h1
    · rcases List.mem_cons.1 hz with rfl | hz
      · exact absurd h1 hk
      · exact hz
    · rcases List.mem_cons.1 hz with rfl | hz
      · exact List.mem_cons_self ..
      · exact List.mem_cons_of_mem _ (ih hz)

/-
Stability: the resolved state at a stored frontier does not change when
the store is extended consistently.
-/

theorem mem_of_ext {st st' : List Event}
    (hext : ∀ i, containsKey eid i st = true → lookupEv st' i = lookupEv st i)
    {f : Event} (hf : f ∈ st) (hsorted : SortedK eid st) : f ∈ st' := by
  have h1 : lookupEv st (eid f) = some f := sortedK_lookup_of_mem hsorted hf
  have h2 : lookupEv st' (eid f) = some f := by
    rw [hext (eid f) (containsKey_of_mem hf)]
    exact h1
  exact (lookupKey_mem h2).1

theorem resolve_ext {st st' : List Event} (hOK : StoreOK st)
    (hext : ∀ i, containsKey eid i st = true → lookupEv st' i = lookupEv st i)
    {inputs : List StateSnapshot} (hin : ∀ s ∈ inputs, ∀ v ∈ s, v ∈ st) :
    resolve st' inputs = resolve st inputs := by
  by_cases hc : conflictedEvents inputs = []
  · simp [resolve, hc]
  · have hdiffeq : authDifference st' inputs (conflictedEvents inputs) =
        authDifference st inputs (conflictedEvents inputs) := by
      show seqOption (((((conflictedEvents inputs).flatMap (fun e => e.auth_events)).filter
          (fun i => !(inAllInputs inputs i))).foldl
            (fun acc i => insKey (fun n => n) i acc) []).map (fun i => lookupEv st' i)) =
        seqOption (((((conflictedEvents inputs).flatMap (fun e => e.auth_events)).filter
          (fun i => !(inAllInputs inputs i))).foldl
            (fun acc i => insKey (fun n => n) i acc) []).map (fun i => lookupEv st i))
      refine congrArg seqOption (List.map_congr_left ?_)
      intro i hi
      rcases @mem_foldl_insKey_weak Nat (fun n => n) Nat (fun j => j) _ _ _ hi with hi | ⟨j, hj, rfl⟩
      · cases hi
      · have hj2 := List.mem_filter.1 hj
        obtain ⟨v, hv, hiv⟩ := List.mem_flatMap.1 hj2.1
        obtain ⟨s, hs, hvs⟩ := mem_conflictedEvents hv
        exact hext i (hOK.2.1 v (hin s hs v hvs) i (List.mem_append_right _ hiv))
    by_cases hd : authDifference st inputs (conflictedEvents inputs) = none
    · simp [resolve, hc, hdiffeq, hd]
    · obtain ⟨diff, hdiff⟩ := Option.ne_none_iff_exists.1 hd
      simp [resolve, hc, hdiffeq, hdiff]

theorem stateAfter_fuel_irrel {st : List Event} (hOK : StoreOK st) :
    ∀ (fuel : Nat) (e : Event), e ∈ st → e.depth ≤ fuel →
    stateAfter st fuel e = stateAfter st e.depth e := by
  intro fuel
  induction fuel using Nat.strong_induction_on with
  | _ fuel ih =>
    intro e he hd
    have hpos := hOK.2.2.1 e he
    cases hfuel : fuel with
    | zero => omega
    | succ f =>
      cases hdepth : e.depth with
      | zero => omega
      | succ d =>
        have hmap : e.prev_events.map (fun i => lookupEv st i) =
            e.prev_events.map (fun i => lookupEv st i) := rfl
        have hp : ∀ i ∈ e.prev_events, (lookupEv st i).isSome = true := by
          intro i hi
          simpa [containsKey] using hOK.2.1 e he i (List.mem_append_left _ hi)
        obtain ⟨parents, hpar, hparmem⟩ := seqOption_map_total hp
        have hstates : parents.map (fun p => stateAfter st f p) =
            parents.map (fun p => stateAfter st d p) := by
          refine List.map_congr_left ?_
          intro p hpm
          obtain ⟨i, hi, hip⟩ := hparmem p hpm
          have hpmem2 : p ∈ st := (lookupKey_mem hip).1
          have hpd : p.depth < e.depth := hOK.2.2.2 e he i hi p hip
          rw [ih f (by omega) p hpmem2 (by omega),
            ih d (by omega) p hpmem2 (by omega)]
        show stateAfter st (f + 1) e = stateAfter st (d + 1) e
        simp only [stateAfter, hpar, hstates]

theorem stateAfter_ext {st st' : List Event} (hOK : StoreOK st)
    (hext : ∀ i, containsKey eid i st = true → lookupEv st' i = lookupEv st i) :
    ∀ (fuel : Nat) (e : Event), e ∈ st → e.depth ≤ fuel →
    stateAfter st' fuel e = stateAfter st fuel e := by
  intro fuel
  induction fuel with
  | zero =>
    intro e he hd
    have := hOK.2.2.1 e he
    omega
  | succ fuel ih =>
    intro e he hd
    have hmap : e.prev_events.map (fun i => lookupEv st' i) =
        e.prev_events.map (fun i => lookupEv st i) := by
      refine List.map_congr_left ?_
      intro i hi
      exact hext i (hOK.2.1 e he i (List.mem_append_left _ hi))
    have hp : ∀ i ∈ e.prev_events, (lookupEv st i).isSome = true := by
      intro i hi
      simpa [containsKey] using hOK.2.1 e he i (List.mem_append_left _ hi)
    obtain ⟨parents, hpar, hparmem⟩ := seqOption_map_total hp
    have hparfacts : ∀ p ∈ parents, p ∈ st ∧ p.depth < e.depth := by
      intro p hpm
      obtain ⟨i, hi, hip⟩ := hparmem p hpm
      exact ⟨(lookupKey_mem hip).1, hOK.2.2.2 e he i hi p hip⟩
    have hstates : parents.map (fun p => stateAfter st' fuel p) =
        parents.map (fun p => stateAfter st fuel p) := by
      refine List.map_congr_left ?_
      intro p hpm
      exact ih p (hparfacts p hpm).1 (by have := (hparfacts p hpm).2; omega)
    have hq : ∀ p ∈ parents, (stateAfter st fuel p).isSome = true := by
      intro p hpm
      obtain ⟨out, hout, -⟩ := stateAfter_total hOK fuel p (hparfacts p hpm).1
        (by have := (hparfacts p hpm).2; omega)
      simp [hout]
    obtain ⟨states, hst2, hstmem⟩ := seqOption_map_total hq
    have hstrange : ∀ s ∈ states, ∀ v ∈ s, v ∈ st := by
      intro s hs v hv
      obtain ⟨p, hpm, hps⟩ := hstmem s hs
      obtain ⟨out, hout, houtmem⟩ := stateAfter_total hOK fuel p (hparfacts p hpm).1
        (by have := (hparfacts p hpm).2; omega)
      rw [hout] at hps
      cases Option.some.inj hps
      exact houtmem v hv
    have hres : resolve st' states = resolve st states := resolve_ext hOK hext hstrange
    simp only [stateAfter, hmap, hpar, hstates, hst2, hres]

theorem stateAtIds_fuel_irrel {st : List Event} (hOK : StoreOK st)
    {f : List Nat} (hf : ∀ i ∈ f, containsKey eid i st = true)
    {fuel1 fuel2 : Nat} (h1 : maxDepth st ≤ fuel1) (h2 : maxDepth st ≤ fuel2) :
    stateAtIds st fuel1 f = stateAtIds st fuel2 f := by
  have hl : ∀ i ∈ f, (lookupEv st i).isSome = true := by
    intro i hi
    simpa [containsKey] using hf i hi
  obtain ⟨evs, hevs, hevsmem⟩ := seqOption_map_total hl
  have hstates : evs.map (fun p => stateAfter st fuel1 p) =
      evs.map (fun p => stateAfter st fuel2 p) := by
    refine List.map_congr_left ?_
    intro p hpm
    obtain ⟨i, hi, hip⟩ := hevsmem p hpm
    have hpmem : p ∈ st := (lookupKey_mem hip).1
    have hpd := depth_le_maxDepth hpmem
    rw [stateAfter_fuel_irrel hOK fuel1 p hpmem (by omega)]
    exact (stateAfter_fuel_irrel hOK fuel2 p hpmem (by omega)).symm
  simp only [stateAtIds, hevs, hstates]

theorem stateAtFrontier_ext {st st' : List Event} (hOK : StoreOK st)
    (hOK' : StoreOK st')
    (hext : ∀ i, containsKey eid i st = true → lookupEv st' i = lookupEv st i)
    {f : List Nat} (hf : ∀ i ∈ f, containsKey eid i st = true) :
    stateAtFrontier st' f = stateAtFrontier st f := by
  have hf' : ∀ i ∈ f, containsKey eid i st' = true := by
    intro i hi
    have h2 := hext i (hf i hi)
    rw [containsKey, ← lookupEv, h2]
    exact hf i hi
  have hl : ∀ i ∈ f, (lookupEv st i).isSome = true := by
    intro i hi
    simpa [containsKey] using hf i hi
  obtain ⟨evs, hevs, hevsmem⟩ := seqOption_map_total hl
  have hmap : f.map (fun i => lookupEv st' i) = f.map (fun i => lookupEv st i) := by
    refine List.map_congr_left ?_
    intro i hi
    exact hext i (hf i hi)
  have hevfacts : ∀ p ∈ evs, p ∈ st := by
    intro p hpm
    obtain ⟨i, hi, hip⟩ := hevsmem p hpm
    exact (lookupKey_mem hip).1
  have hfuelbig : ∀ p ∈ evs, p.depth ≤ maxDepth st' := by
    intro p hpm
    exact depth_le_maxDepth (mem_of_ext hext (hevfacts p hpm) hOK.1)
  have hstates1 : evs.map (fun p => stateAfter st' (maxDepth st' + 1) p) =
      evs.map (fun p => stateAfter st (maxDepth st' + 1) p) := by
    refine List.map_congr_left ?_
    intro p hpm
    exact stateAfter_ext hOK hext _ p (hevfacts p hpm)
      (by have := hfuelbig p hpm; omega)
  have hstates2 : evs.map (fun p => stateAfter st (maxDepth st' + 1) p) =
      evs.map (fun p => stateAfter st (maxDepth st + 1) p) := by
    refine List.map_congr_left ?_
    intro p hpm
    have hpd := depth_le_maxDepth (hevfacts p hpm)
    have hpd2 := hfuelbig p hpm
    rw [stateAfter_fuel_irrel hOK (maxDepth st' + 1) p (hevfacts p hpm) (by omega)]
    exact (stateAfter_fuel_irrel hOK (maxDepth st + 1) p (hevfacts p hpm) (by omega)).symm
  have hq : ∀ p ∈ evs, (stateAfter st (maxDepth st + 1) p).isSome = true := by
    intro p hpm
    obtain ⟨out, hout, -⟩ := stateAfter_total hOK (maxDepth st + 1) p (hevfacts p hpm)
      (by have := depth_le_maxDepth (hevfacts p hpm); omega)
    simp [hout]
  obtain ⟨states, hst2, hstmem⟩ := seqOption_map_total hq
  have hstrange : ∀ s ∈ states, ∀ v ∈ s, v ∈ st := by
    intro s hs v hv
    obtain ⟨p, hpm, hps⟩ := hstmem s hs
    obtain ⟨out, hout, houtmem⟩ := stateAfter_total hOK (maxDepth st + 1) p (hevfacts p hpm)
      (by have := depth_le_maxDepth (hevfacts p hpm); omega)
    rw [hout] at hps
    cases Option.some.inj hps
    exact houtmem v hv
  have hres : resolve st' states = resolve st states := resolve_ext hOK hext hstrange
  show stateAtIds st' (maxDepth st' + 1) f = stateAtIds st (maxDepth st + 1) f
  simp only [stateAtIds, hmap, hevs, hstates1, hstates2, hst2, hres]

/-
Preservation of the room invariant by the pipeline.
-/

theorem mem_insKey_fresh {β : Type} {key : β → Nat} {x z : β} {l : List β}
    (hfresh : containsKey key (key x) l = false) :
    z ∈ insKey key x l ↔ z = x ∨ z ∈ l := by
  constructor
  · exact mem_insKey_weak
  · rintro (rfl | hz)
    · exact self_mem_insKey
    · exact mem_insKey_of_mem hz (containsKey_false hfresh z hz)

theorem mem_insNat {x z : Nat} {l : List Nat} :
    z ∈ insKey (fun n => n) x l ↔ z = x ∨ z ∈ l := by
  constructor
  · exact mem_insKey_weak
  · rintro (rfl | hz)
    · exact self_mem_insKey
    · by_cases hzx : z = x
      · exact hzx ▸ self_mem_insKey
      · exact mem_insKey_of_mem hz hzx

theorem lookupNat_eq {l : List Nat} {k : Nat} :
    lookupKey (fun n => n) k l = if k ∈ l then some k else none := by
  induction l with
  | nil => simp [lookupKey_nil]
  | cons y l ih =>
    rw [lookupKey_cons]
    by_cases hy : y = k
    · subst hy
      rw [if_pos rfl, if_pos (List.mem_cons_self ..)]
    · rw [if_neg hy, ih]
      by_cases hk : k ∈ l
      · rw [if_pos hk, if_pos (List.mem_cons_of_mem _ hk)]
      · rw [if_neg hk, if_neg (by simp [hk]; omega)]

theorem sortedNat_ext {l1 l2 : List Nat} (h1 : SortedK (fun n => n) l1)
    (h2 : SortedK (fun n => n) l2) (h : ∀ k, k ∈ l1 ↔ k ∈ l2) : l1 = l2 := by
  refine sortedK_ext h1 h2 ?_
  intro k
  rw [lookupNat_eq, lookupNat_eq]
  by_cases hk : k ∈ l1
  · rw [if_pos hk, if_pos ((h k).1 hk)]
  · rw [if_neg hk, if_neg (fun hc => hk ((h k).2 hc))]

theorem natContains_iff {l : List Nat} {a : Nat} :
    l.contains a = true ↔ a ∈ l := by
  simp [List.contains]

theorem hasChildIn_iff {store : List Event} {i : Nat} :
    hasChildIn store i = true ↔ ∃ f ∈ store, i ∈ f.prev_events := by
  simp [hasChildIn, List.any_eq_true]

theorem mem_zeroChildren {store : List Event} {k : Nat} :
    k ∈ zeroChildren store ↔
      (∃ f ∈ store, f.event_id = k) ∧ hasChildIn store k = false := by
  unfold zeroChildren
  rw [List.mem_map]
  constructor
  · rintro ⟨f, hf, rfl⟩
    have hf2 := List.mem_filter.1 hf
    refine ⟨⟨f, hf2.1, rfl⟩, ?_⟩
    simpa [eid] using hf2.2
  · rintro ⟨⟨f, hf, rfl⟩, hnc⟩
    exact ⟨f, List.mem_filter.2 ⟨hf, by simpa [eid] using hnc⟩, rfl⟩

theorem zeroChildren_sorted {store : List Event} (h : SortedK eid store) :
    SortedK (fun n => n) (zeroChildren store) := by
  unfold zeroChildren SortedK
  rw [List.pairwise_map]
  exact List.Pairwise.filter _ h

theorem withDepth_id (st : List Event) (e : Event) :
    (withDepth st e).event_id = e.event_id := rfl

theorem withDepth_prev (st : List Event) (e : Event) :
    (withDepth st e).prev_events = e.prev_events := rfl

theorem withDepth_deps (st : List Event) (e : Event) :
    deps (withDepth st e) = deps e := rfl

theorem storeOK_insert {st : List Event} {e : Event} (hOK : StoreOK st)
    (hfresh : containsKey eid e.event_id st = false)
    (hdeps : ∀ i ∈ deps e, containsKey eid i st = true) :
    StoreOK (insKey eid (withDepth st e) st) := by
  obtain ⟨hsorted, hclosed, hpos, hdepth⟩ := hOK
  have hne : ∀ i, containsKey eid i st = true → i ≠ e.event_id := by
    intro i hi hie
    rw [hie, hfresh] at hi
    cases hi
  refine ⟨sortedK_insKey hsorted, ?_, ?_, ?_⟩
  · intro f hf i hi
    rcases mem_insKey_weak hf with rfl | hf
    · rw [withDepth_deps] at hi
      rw [containsKey, lookupKey_insKey_ne (by exact hne i (hdeps i hi))]
      exact hdeps i hi
    · rw [containsKey, lookupKey_insKey_ne (by exact hne i (hclosed f hf i hi))]
      exact hclosed f hf i hi
  · intro f hf
    rcases mem_insKey_weak hf with rfl | hf
    · show 1 ≤ 1 + _
      omega
    · exact hpos f hf
  · intro f hf i hi p hp
    rcases mem_insKey_weak hf with rfl | hf
    · rw [withDepth_prev] at hi
      have hc : containsKey eid i st = true := hdeps i (List.mem_append_left _ hi)
      rw [lookupEv, lookupKey_insKey_ne (by exact hne i hc)] at hp
      have hp2 : p.depth ∈ (e.prev_events.filterMap (fun j => lookupEv st j)).map
          (fun q => q.depth) :=
        List.mem_map.2 ⟨p, List.mem_filterMap.2 ⟨i, hi, hp⟩, rfl⟩
      show p.depth < 1 + _
      have := le_foldr_max hp2
      omega
    · have hc : containsKey eid i st = true :=
        hclosed f hf i (List.mem_append_left _ hi)
      rw [lookupEv, lookupKey_insKey_ne (by exact hne i hc)] at hp
      exact hdepth f hf i hi p hp

theorem zeroChildren_insert {st : List Event} {e : Event} (hOK : StoreOK st)
    (hfresh : containsKey eid e.event_id st = false)
    (hdeps : ∀ i ∈ deps e, containsKey eid i st = true) :
    zeroChildren (insKey eid (withDepth st e) st) =
      insKey (fun n => n) e.event_id
        ((zeroChildren st).filter (fun i => !(e.prev_events.contains i))) := by
  have hmemins : ∀ z, z ∈ insKey eid (withDepth st e) st ↔ z = withDepth st e ∨ z ∈ st :=
    fun z => mem_insKey_fresh (by exact hfresh)
  have hnotc : ∀ f ∈ st, e.event_id ∉ f.prev_events := by
    intro f hf hmem
    have := hOK.2.1 f hf e.event_id (List.mem_append_left _ hmem)
    rw [hfresh] at this
    cases this
  have hnotself : e.event_id ∉ e.prev_events := by
    intro hmem
    have := hdeps e.event_id (List.mem_append_left _ hmem)
    rw [hfresh] at this
    cases this
  have hchild : ∀ k, hasChildIn (insKey eid (withDepth st e) st) k = true ↔
      k ∈ e.prev_events ∨ hasChildIn st k = true := by
    intro k
    rw [hasChildIn_iff, hasChildIn_iff]
    constructor
    · rintro ⟨f, hf, hk⟩
      rcases (hmemins f).1 hf with rfl | hf
      · rw [withDepth_prev] at hk
        exact Or.inl hk
      · exact Or.inr ⟨f, hf, hk⟩
    · rintro (hk | ⟨f, hf, hk⟩)
      · exact ⟨withDepth st e, (hmemins _).2 (Or.inl rfl), by rw [withDepth_prev]; exact hk⟩
      · exact ⟨f, (hmemins f).2 (Or.inr hf), hk⟩
  refine sortedNat_ext (zeroChildren_sorted (sortedK_insKey hOK.1))
    (sortedK_insKey (List.Pairwise.filter _ (zeroChildren_sorted hOK.1))) ?_
  intro k
  rw [mem_zeroChildren, mem_insNat, List.mem_filter, mem_zeroChildren]
  constructor
  · rintro ⟨⟨f, hf, rfl⟩, hnc⟩
    rcases (hmemins f).1 hf with rfl | hf
    · exact Or.inl (withDepth_id ..)
    · refine Or.inr ⟨⟨⟨f, hf, rfl⟩, ?_⟩, ?_⟩
      · cases hcs : hasChildIn st f.event_id with
        | false => rfl
        | true =>
          obtain ⟨g, hg, hgk⟩ := hasChildIn_iff.1 hcs
          have : hasChildIn (insKey eid (withDepth st e) st) f.event_id = true :=
            (hchild _).2 (Or.inr hcs)
          rw [hnc] at this
          cases this
      · have hno : ¬ (f.event_id ∈ e.prev_events ∨ hasChildIn st f.event_id = true) := by
          intro hor
          have := (hchild f.event_id).2 hor
          rw [hnc] at this
          cases this
        have hnotin : f.event_id ∉ e.prev_events := fun hk => hno (Or.inl hk)
        cases hcontains : e.prev_events.contains f.event_id with
        | false => rfl
        | true => exact absurd (natContains_iff.1 hcontains) hnotin
  · rintro (rfl | ⟨⟨⟨f, hf, rfl⟩, hnc⟩, hfilter⟩)
    · refine ⟨⟨withDepth st e, (hmemins _).2 (Or.inl rfl), withDepth_id ..⟩, ?_⟩
      cases hcs : hasChildIn (insKey eid (withDepth st e) st) e.event_id with
      | false => rfl
      | true =>
        rcases (hchild e.event_id).1 hcs with hk | hk
        · exact absurd hk hnotself
        · obtain ⟨f, hf, hk⟩ := hasChildIn_iff.1 hk
          exact absurd hk (hnotc f hf)
    · refine ⟨⟨f, (hmemins f).2 (Or.inr hf), rfl⟩, ?_⟩
      cases hcs : hasChildIn (insKey eid (withDepth st e) st) f.event_id with
      | false => rfl
      | true =>
        rcases (hchild f.event_id).1 hcs with hk | hk
        · rw [Bool.not_eq_true', ← Bool.not_eq_true] at hfilter
          exact absurd (natContains_iff.2 hk) (by simpa using hfilter)
        · rw [hnc] at hk
          cases hk

theorem ingestNew_missing {r : Room} {e : Event} (h : missingDeps r.store e ≠ []) :
    ingestNew r e = ({ r with pending := insKey pendKey (e, RETRY_BUDGET) r.pending },
      Outcome.suspended (missingDeps r.store e)) := by
  simp only [ingestNew]
  rw [if_neg (by simpa [List.isEmpty_iff] using h)]

theorem ingestNew_accept {r : Room} {e : Event} {st : StateSnapshot}
    (hdeps : missingDeps r.store e = [])
    (hst : stateAtFrontier r.store e.prev_events = some st)
    (hauth : is_authorized e st = true) :
    ingestNew r e = (acceptRoom r e, Outcome.accepted) := by
  simp only [ingestNew, hdeps, List.isEmpty_nil, if_true, hst, hauth]

theorem ingestNew_reject {r : Room} {e : Event} {st : StateSnapshot}
    (hdeps : missingDeps r.store e = [])
    (hst : stateAtFrontier r.store e.prev_events = some st)
    (hauth : is_authorized e st = false) :
    ingestNew r e = ({ r with rejected := insKey (fun n => n) e.event_id r.rejected },
      Outcome.rejected RejectReason.unauthorized) := by
  simp only [ingestNew, hdeps, List.isEmpty_nil, if_true, hst, hauth,
    Bool.false_eq_true, if_false]

theorem invCore_suspend {r : Room} {e : Event} (h : InvCore r)
    (hs : containsKey eid e.event_id r.store = false)
    (hr : e.event_id ∉ r.rejected) :
    InvCore { r with pending := insKey pendKey (e, RETRY_BUDGET) r.pending } := by
  obtain ⟨hok, hext, hrej, hpend, hzero, hrdis, hpdis⟩ := h
  refine ⟨hok, hext, hrej, sortedK_insKey hpend, hzero, hrdis, ?_⟩
  intro p hp
  rcases mem_insKey_weak hp with rfl | hp
  · exact ⟨hs, hr⟩
  · exact hpdis p hp

theorem invCore_reject {r : Room} {e : Event} (h : InvCore r)
    (hs : containsKey eid e.event_id r.store = false)
    (hp : containsKey pendKey e.event_id r.pending = false) :
    InvCore { r with rejected := insKey (fun n => n) e.event_id r.rejected } := by
  obtain ⟨hok, hext, hrej, hpend, hzero, hrdis, hpdis⟩ := h
  refine ⟨hok, hext, sortedK_insKey hrej, hpend, hzero, ?_, ?_⟩
  · intro i hi
    rcases mem_insNat.1 hi with rfl | hi
    · exact hs
    · exact hrdis i hi
  · intro p hpm
    refine ⟨(hpdis p hpm).1, ?_⟩
    intro hcon
    rcases mem_insNat.1 hcon with hpe | hcon
    · exact containsKey_false hp p hpm hpe
    · exact (hpdis p hpm).2 hcon

theorem invCore_accept {r : Room} {e : Event} (h : InvCore r)
    (hs : containsKey eid e.event_id r.store = false)
    (hr : e.event_id ∉ r.rejected)
    (hp : containsKey pendKey e.event_id r.pending = false)
    (hdeps : missingDeps r.store e = []) :
    InvCore (acceptRoom r e) := by
  unfold acceptRoom
  obtain ⟨hok, hext, hrej, hpend, hzero, hrdis, hpdis⟩ := h
  have hdeps2 : ∀ i ∈ deps e, containsKey eid i r.store = true :=
    missingDeps_nil_iff.1 hdeps
  refine ⟨storeOK_insert hok hs hdeps2,
    sortedK_insKey (List.Pairwise.filter _ hext), hrej, hpend, ?_, ?_, ?_⟩
  · rw [hzero]
    exact (zeroChildren_insert hok hs hdeps2).symm
  · intro i hi
    cases hc : containsKey eid i (insKey eid (withDepth r.store e) r.store) with
    | false => rfl
    | true =>
      exfalso
      rcases containsKey_insKey.1 hc with rfl | hc
      · exact hr hi
      · have := hrdis i hi
        rw [hc] at this
        cases this
  · intro p hpm
    refine ⟨?_, (hpdis p hpm).2⟩
    cases hc : containsKey eid p.1.event_id (insKey eid (withDepth r.store e) r.store) with
    | false => rfl
    | true =>
      exfalso
      rcases containsKey_insKey.1 hc with hpe | hc
      · exact containsKey_false hp p hpm hpe
      · have := (hpdis p hpm).1
        rw [hc] at this
        cases this

theorem invCore_erasePending {r : Room} {k : Nat} (h : InvCore r) :
    InvCore { r with pending := eraseKey pendKey k r.pending } := by
  obtain ⟨hok, hext, hrej, hpend, hzero, hrdis, hpdis⟩ := h
  exact ⟨hok, hext, hrej, sortedK_eraseKey hpend, hzero, hrdis,
    fun p hp => hpdis p (mem_eraseKey hp)⟩

theorem saturate_noop {fuel : Nat} {r : Room}
    (h : r.pending.find? (fun p => (missingDeps r.store p.1).isEmpty) = none) :
    saturate fuel r = r := by
  cases fuel with
  | zero => rfl
  | succ fuel => simp only [saturate, h]

theorem saturate_spec : ∀ (fuel : Nat) (r : Room), InvCore r →
    r.pending.length ≤ fuel →
    InvCore (saturate fuel r) ∧
    (∀ p ∈ (saturate fuel r).pending,
      missingDeps (saturate fuel r).store p.1 ≠ []) ∧
    (∀ f ∈ r.store, f ∈ (saturate fuel r).store) ∧
    (∀ i ∈ r.rejected, i ∈ (saturate fuel r).rejected) ∧
    (∀ p ∈ (saturate fuel r).pending, p ∈ r.pending) ∧
    (∀ q ∈ r.pending, q ∈ (saturate fuel r).pending ∨
      containsKey eid q.1.event_id (saturate fuel r).store = true ∨
      q.1.event_id ∈ (saturate fuel r).rejected) ∧
    (∀ i, containsKey eid i r.store = true →
      lookupEv (saturate fuel r).store i = lookupEv r.store i) ∧
    (∀ q ∈ r.pending, q.1.event_id ∈ (saturate fuel r).rejected →
      q.1.event_id ∈ r.rejected ∨
      ∀ stq, stateAtFrontier (saturate fuel r).store q.1.prev_events = some stq →
        is_authorized q.1 stq = false) := by
  intro fuel
  induction fuel with
  | zero =>
    intro r h hlen
    have hnil : r.pending = [] := List.length_eq_zero.1 (by omega)
    have heq : saturate 0 r = r := rfl
    rw [heq]
    refine ⟨h, ?_, fun f hf => hf, fun i hi => hi, fun p hp => hp,
      fun q hq => Or.inl hq, fun i _ => rfl, fun q hq hrej => Or.inl hrej⟩
    intro p hp
    rw [hnil] at hp
    cases hp
  | succ fuel ih =>
    intro r h hlen
    cases hfind : r.pending.find? (fun p => (missingDeps r.store p.1).isEmpty) with
    | none =>
      have heq : saturate (fuel + 1) r = r := by simp only [saturate, hfind]
      rw [heq]
      refine ⟨h, ?_, fun f hf => hf, fun i hi => hi, fun p hp => hp,
        fun q hq => Or.inl hq, fun i _ => rfl, fun q hq hrej => Or.inl hrej⟩
      intro p hp hmiss
      have := List.find?_eq_none.1 hfind p hp
      simp [hmiss] at this
    | some p =>
      have hpmem : p ∈ r.pending := List.mem_of_find?_eq_some hfind
      have hpdeps : missingDeps r.store p.1 = [] := by
        have := List.find?_some hfind
        simpa [List.isEmpty_iff] using this
      have hklen : (eraseKey pendKey p.1.event_id r.pending).length + 1 =
          r.pending.length :=
        eraseKey_length (containsKey_of_mem hpmem)
      have hs : containsKey eid p.1.event_id r.store = false :=
        (h.2.2.2.2.2.2 p hpmem).1
      have hr : p.1.event_id ∉ r.rejected := (h.2.2.2.2.2.2 p hpmem).2
      have h2 : InvCore { r with pending := eraseKey pendKey p.1.event_id r.pending } :=
        invCore_erasePending h
      have hp2 : containsKey pendKey p.1.event_id
          (eraseKey pendKey p.1.event_id r.pending) = false := by
        rw [containsKey, lookupKey_eraseKey_self h.2.2.2.1]
        rfl
      have hfr : ∀ i ∈ p.1.prev_events, containsKey eid i r.store = true := by
        intro i hi
        exact missingDeps_nil_iff.1 hpdeps i (List.mem_append_left _ hi)
      obtain ⟨st, hst, -⟩ := stateAtFrontier_total h.1 hfr
      have hne : ∀ z ∈ r.store, eid z ≠ p.1.event_id := containsKey_false hs
      have heq : saturate (fuel + 1) r = saturate fuel
          (ingestNew { r with pending := eraseKey pendKey p.1.event_id r.pending } p.1).1 := by
        simp only [saturate, hfind]
      cases hauth : is_authorized p.1 st with
      | true =>
        have hing : ingestNew { r with pending := eraseKey pendKey p.1.event_id r.pending } p.1 =
            (acceptRoom { r with pending := eraseKey pendKey p.1.event_id r.pending } p.1,
              Outcome.accepted) :=
          ingestNew_accept hpdeps hst hauth
        have h3 : InvCore (acceptRoom
            { r with pending := eraseKey pendKey p.1.event_id r.pending } p.1) :=
          invCore_accept h2 hs hr hp2 hpdeps
        have hlen3 : (acceptRoom
            { r with pending := eraseKey pendKey p.1.event_id r.pending } p.1).pending.length
            ≤ fuel := by
          show (eraseKey pendKey p.1.event_id r.pending).length ≤ fuel
          omega
        obtain ⟨c1, c2, c3, c4, c5, c6, c7, c8⟩ := ih _ h3 hlen3
        rw [heq, hing]
        have hstoremem : ∀ f ∈ r.store, f ∈ (acceptRoom
            { r with pending := eraseKey pendKey p.1.event_id r.pending } p.1).store := by
          intro f hf
          exact mem_insKey_of_mem hf (hne f hf)
        have hpstored : containsKey eid p.1.event_id (saturate fuel (acceptRoom
            { r with pending := eraseKey pendKey p.1.event_id r.pending } p.1)).store = true := by
          have hmem : withDepth r.store p.1 ∈ (saturate fuel (acceptRoom
              { r with pending := eraseKey pendKey p.1.event_id r.pending } p.1)).store :=
            c3 _ self_mem_insKey
          exact containsKey_iff.2 ⟨_, hmem, rfl⟩
        refine ⟨c1, c2, ?_, c4, ?_, ?_, ?_, ?_⟩
        · intro f hf
          exact c3 _ (hstoremem f hf)
        · intro q hq
          exact mem_eraseKey (c5 q hq)
        · intro q hq
          by_cases hqp : q.1.event_id = p.1.event_id
          · refine Or.inr (Or.inl ?_)
            rw [hqp]
            exact hpstored
          · have hq2 : q ∈ (acceptRoom
                { r with pending := eraseKey pendKey p.1.event_id r.pending } p.1).pending :=
              mem_eraseKey_of_ne hq hqp
            exact c6 q hq2
        · intro i hi
          have hip : i ≠ p.1.event_id := by
            intro hip
            rw [hip, hs] at hi
            cases hi
          have hstep : lookupEv (acceptRoom
              { r with pending := eraseKey pendKey p.1.event_id r.pending } p.1).store i =
              lookupEv r.store i := by
            show lookupKey eid i (insKey eid (withDepth r.store p.1) r.store) = _
            rw [lookupKey_insKey_ne (by exact hip)]
            rfl
          rw [← hstep]
          refine c7 i ?_
          show containsKey eid i (insKey eid (withDepth r.store p.1) r.store) = true
          rw [containsKey, lookupKey_insKey_ne (by exact hip)]
          exact hi
        · intro q hq hrej
          by_cases hqp : q.1.event_id = p.1.event_id
          · exfalso
            have hdis := c1.2.2.2.2.2.1 _ hrej
            rw [hqp, hpstored] at hdis
            cases hdis
          · have hq2 : q ∈ (acceptRoom
                { r with pending := eraseKey pendKey p.1.event_id r.pending } p.1).pending :=
              mem_eraseKey_of_ne hq hqp
            exact c8 q hq2 hrej
      | false =>
        have hing : ingestNew { r with pending := eraseKey pendKey p.1.event_id r.pending } p.1 = ({ r with pending := eraseKey pendKey p.1.event_id r.pending, rejected := insKey (fun n => n) p.1.event_id r.rejected }, Outcome.rejected RejectReason.unauthorized) :=
          ingestNew_reject hpdeps hst hauth
        have h3 : InvCore { r with pending := eraseKey pendKey p.1.event_id r.pending, rejected := insKey (fun n => n) p.1.event_id r.rejected } :=
          invCore_reject h2 hs hp2
        have hlen3 : (eraseKey pendKey p.1.event_id r.pending).length ≤ fuel := by omega
        obtain ⟨c1, c2, c3, c4, c5, c6, c7, c8⟩ := ih _ h3 hlen3
        rw [heq, hing]
        have hauthfin : ∀ stq, stateAtFrontier (saturate fuel { r with pending := eraseKey pendKey p.1.event_id r.pending, rejected := insKey (fun n => n) p.1.event_id r.rejected }).store p.1.prev_events = some stq → is_authorized p.1 stq = false := by
          intro stq hstq
          have hfr2 : stateAtFrontier (saturate fuel { r with pending := eraseKey pendKey p.1.event_id r.pending, rejected := insKey (fun n => n) p.1.event_id r.rejected }).store p.1.prev_events = stateAtFrontier r.store p.1.prev_events :=
            stateAtFrontier_ext h.1 c1.1 c7 hfr
          rw [hfr2, hst] at hstq
          cases Option.some.inj hstq
          exact hauth
        refine ⟨c1, c2, c3, ?_, ?_, ?_, c7, ?_⟩
        · intro i hi
          exact c4 i (mem_insNat.2 (Or.inr hi))
        · intro q hq
          exact mem_eraseKey (c5 q hq)
        · intro q hq
          by_cases hqp : q.1.event_id = p.1.event_id
          · have hqp2 : q = p := sortedK_inj h.2.2.2.1 hq hpmem hqp
            subst hqp2
            exact Or.inr (Or.inr (c4 _ (mem_insNat.2 (Or.inl rfl))))
          · exact c6 q (mem_eraseKey_of_ne hq hqp)
        · intro q hq hrej
          by_cases hqp : q.1.event_id = p.1.event_id
          · have hqp2 : q = p := sortedK_inj h.2.2.2.1 hq hpmem hqp
            subst hqp2
            exact Or.inr hauthfin
          · rcases c8 q (mem_eraseKey_of_ne hq hqp) hrej with hql | hqa
            · rcases mem_insNat.1 hql with hqe | hql
              · exact absurd hqe hqp
              · exact Or.inl hql
            · exact Or.inr hqa

theorem process_stored {r : Room} {e : Event}
    (h : containsKey eid e.event_id r.store = true) :
    process r e = (r, Outcome.duplicate) := by
  simp only [process, h, if_true]

theorem process_rejected_short {r : Room} {e : Event}
    (h1 : containsKey eid e.event_id r.store = false)
    (h2 : e.event_id ∈ r.rejected) :
    process r e = (r, Outcome.alreadyRejected) := by
  simp only [process, h1, Bool.false_eq_true, if_false, natContains_iff.2 h2, if_true]

theorem process_pending_short {r : Room} {e : Event}
    (h1 : containsKey eid e.event_id r.store = false)
    (h2 : e.event_id ∉ r.rejected)
    (h3 : containsKey pendKey e.event_id r.pending = true) :
    process r e = (r, Outcome.duplicate) := by
  have h2c : r.rejected.contains e.event_id = false := by
    cases hc : r.rejected.contains e.event_id with
    | false => rfl
    | true => exact absurd (natContains_iff.1 hc) h2
  simp only [process, h1, Bool.false_eq_true, if_false, h2c, h3, if_true]

theorem process_fresh_eq {r : Room} {e : Event}
    (h1 : containsKey eid e.event_id r.store = false)
    (h2 : e.event_id ∉ r.rejected)
    (h3 : containsKey pendKey e.event_id r.pending = false) :
    process r e = (match ingestNew r e with
      | (r1, Outcome.accepted) => (saturate r1.pending.length r1, Outcome.accepted)
      | (r1, o) => (r1, o)) := by
  have h2c : r.rejected.contains e.event_id = false := by
    cases hc : r.rejected.contains e.event_id with
    | false => rfl
    | true => exact absurd (natContains_iff.1 hc) h2
  simp only [process, h1, Bool.false_eq_true, if_false, h2c, h3]

theorem process_fresh_suspend {r : Room} {e : Event}
    (h1 : containsKey eid e.event_id r.store = false)
    (h2 : e.event_id ∉ r.rejected)
    (h3 : containsKey pendKey e.event_id r.pending = false)
    (hmiss : missingDeps r.store e ≠ []) :
    process r e = ({ r with pending := insKey pendKey (e, RETRY_BUDGET) r.pending },
      Outcome.suspended (missingDeps r.store e)) := by
  rw [process_fresh_eq h1 h2 h3, ingestNew_missing hmiss]

theorem process_fresh_accept {r : Room} {e : Event} {st : StateSnapshot}
    (h1 : containsKey eid e.event_id r.store = false)
    (h2 : e.event_id ∉ r.rejected)
    (h3 : containsKey pendKey e.event_id r.pending = false)
    (hmiss : missingDeps r.store e = [])
    (hst : stateAtFrontier r.store e.prev_events = some st)
    (hauth : is_authorized e st = true) :
    process r e = (saturate (acceptRoom r e).pending.length (acceptRoom r e),
      Outcome.accepted) := by
  rw [process_fresh_eq h1 h2 h3, ingestNew_accept hmiss hst hauth]

theorem process_fresh_reject {r : Room} {e : Event} {st : StateSnapshot}
    (h1 : containsKey eid e.event_id r.store = false)
    (h2 : e.event_id ∉ r.rejected)
    (h3 : containsKey pendKey e.event_id r.pending = false)
    (hmiss : missingDeps r.store e = [])
    (hst : stateAtFrontier r.store e.prev_events = some st)
    (hauth : is_authorized e st = false) :
    process r e = ({ r with rejected := insKey (fun n => n) e.event_id r.rejected },
      Outcome.rejected RejectReason.unauthorized) := by
  rw [process_fresh_eq h1 h2 h3, ingestNew_reject hmiss hst hauth]

theorem inv_process {r : Room} (e : Event) (h : Inv r) : Inv (process r e).1 := by
  cases hc1 : containsKey eid e.event_id r.store with
  | true => rw [process_stored hc1]; exact h
  | false =>
    by_cases hc2 : e.event_id ∈ r.rejected
    · rw [process_rejected_short hc1 hc2]; exact h
    · cases hc3 : containsKey pendKey e.event_id r.pending with
      | true => rw [process_pending_short hc1 hc2 hc3]; exact h
      | false =>
        by_cases hmiss : missingDeps r.store e = []
        · obtain ⟨st, hst, -⟩ := stateAtFrontier_total h.1.1
            (fun i hi => missingDeps_nil_iff.1 hmiss i (List.mem_append_left _ hi))
          cases hauth : is_authorized e st with
          | true =>
            rw [process_fresh_accept hc1 hc2 hc3 hmiss hst hauth]
            have hcore := invCore_accept h.1 hc1 hc2 hc3 hmiss
            obtain ⟨c1, c2, -⟩ := saturate_spec _ _ hcore (le_refl _)
            exact ⟨c1, c2⟩
          | false =>
            rw [process_fresh_reject hc1 hc2 hc3 hmiss hst hauth]
            refine ⟨invCore_reject h.1 hc1 hc3, ?_⟩
            intro p hp
            exact h.2 p hp
        · rw [process_fresh_suspend hc1 hc2 hc3 hmiss]
          refine ⟨invCore_suspend h.1 hc1 hc2, ?_⟩
          intro p hp
          rcases mem_insKey_weak hp with rfl | hp
          · exact hmiss
          · exact h.2 p hp

theorem inv_empty : Inv emptyRoom := by
  refine ⟨⟨⟨List.Pairwise.nil, ?_, ?_, ?_⟩, List.Pairwise.nil, List.Pairwise.nil,
    List.Pairwise.nil, rfl, ?_, ?_⟩, ?_⟩ <;>
    first
    | (intro x hx; cases hx)
    | (intro x hx; exact absurd hx (by simp [emptyRoom]))

theorem inv_foldProcess : ∀ (l : List Event) (r : Room), Inv r →
    Inv (l.foldl (fun r2 e => (process r2 e).1) r) := by
  intro l
  induction l with
  | nil => exact fun r h => h
  | cons e l ih =>
    intro r h
    exact ih _ (inv_process e h)

theorem inv_ingestAll (l : List Event) : Inv (ingestAll l) :=
  inv_foldProcess l emptyRoom inv_empty

theorem membership_after_process {r : Room} {e : Event} (h : Inv r) :
    containsKey eid e.event_id (process r e).1.store = true ∨
    e.event_id ∈ (process r e).1.rejected ∨
    containsKey pendKey e.event_id (process r e).1.pending = true := by
  cases hc1 : containsKey eid e.event_id r.store with
  | true => rw [process_stored hc1]; exact Or.inl hc1
  | false =>
    by_cases hc2 : e.event_id ∈ r.rejected
    · rw [process_rejected_short hc1 hc2]; exact Or.inr (Or.inl hc2)
    · cases hc3 : containsKey pendKey e.event_id r.pending with
      | true => rw [process_pending_short hc1 hc2 hc3]; exact Or.inr (Or.inr hc3)
      | false =>
        by_cases hmiss : missingDeps r.store e = []
        · obtain ⟨st, hst, -⟩ := stateAtFrontier_total h.1.1
            (fun i hi => missingDeps_nil_iff.1 hmiss i (List.mem_append_left _ hi))
          cases hauth : is_authorized e st with
          | true =>
            rw [process_fresh_accept hc1 hc2 hc3 hmiss hst hauth]
            refine Or.inl ?_
            have hcore := invCore_accept h.1 hc1 hc2 hc3 hmiss
            obtain ⟨-, -, c3, -, -, -, -⟩ := saturate_spec _ _ hcore (le_refl _)
            have hmem : withDepth r.store e ∈ (saturate (acceptRoom r e).pending.length
                (acceptRoom r e)).store := c3 _ self_mem_insKey
            exact containsKey_iff.2 ⟨_, hmem, rfl⟩
          | false =>
            rw [process_fresh_reject hc1 hc2 hc3 hmiss hst hauth]
            exact Or.inr (Or.inl (mem_insNat.2 (Or.inl rfl)))
        · rw [process_fresh_suspend hc1 hc2 hc3 hmiss]
          refine Or.inr (Or.inr ?_)
          show containsKey pendKey e.event_id
            (insKey pendKey (e, RETRY_BUDGET) r.pending) = true
          rw [containsKey]
          rw [show e.event_id = pendKey (e, RETRY_BUDGET) from rfl, lookupKey_insKey_self]
          rfl

/-- C2: ingesting the same event twice leaves the room — store, graph
index, resolved state — identical to ingesting it once; re-receiving an
already-stored event id short-circuits to a no-op duplicate success. -/
theorem ingest_idempotent {r : Room} (e : Event) (h : Inv r) :
    (process (process r e).1 e).1 = (process r e).1 ∧
    (containsKey eid e.event_id r.store = true →
      process r e = (r, Outcome.duplicate)) := by
  refine ⟨?_, fun hc => process_stored hc⟩
  have h1 : Inv (process r e).1 := inv_process e h
  rcases membership_after_process h with hm | hm | hm
  · rw [process_stored hm]
  · have hns : containsKey eid e.event_id (process r e).1.store = false := by
      cases hc : containsKey eid e.event_id (process r e).1.store with
      | false => rfl
      | true =>
        have := h1.1.2.2.2.2.2.1 _ hm
        rw [hc] at this
        cases this
    rw [process_rejected_short hns hm]
  · obtain ⟨q, hq, hqk⟩ := containsKey_iff.1 hm
    have hns : containsKey eid e.event_id (process r e).1.store = false := by
      have := (h1.1.2.2.2.2.2.2 q hq).1
      rw [show q.1.event_id = e.event_id from hqk] at this
      exact this
    have hnr : e.event_id ∉ (process r e).1.rejected := by
      have := (h1.1.2.2.2.2.2.2 q hq).2
      rw [show q.1.event_id = e.event_id from hqk] at this
      exact this
    rw [process_pending_short hns hnr hm]

/-- C2 witness: re-ingesting B after it was accepted is a no-op, and
re-submitting it short-circuits to a duplicate success. -/
theorem ingest_idempotent_witness :
    (process (process (ingestAll [evA]) evB).1 evB).1 = (process (ingestAll [evA]) evB).1 ∧
    (process (process (ingestAll [evA]) evB).1 evB).2 = Outcome.duplicate := by
  have main := ingest_idempotent evB (inv_ingestAll [evA])
  refine ⟨main.1, ?_⟩
  decide

/-- C6: after every delivery sequence into a fresh room, the forward
extremity set is exactly the set of stored events with zero recorded
children; and each acceptance makes the new event an extremity while
removing its parents from the extremity set in the same transaction. -/
theorem extremities_eq_zero_children (l : List Event) :
    (ingestAll l).extremities = zeroChildren (ingestAll l).store ∧
    (∀ (r : Room) (e : Event), (acceptRoom r e).extremities =
      insKey (fun n => n) e.event_id
        (r.extremities.filter (fun i => !(e.prev_events.contains i)))) :=
  ⟨(inv_ingestAll l).1.2.2.2.2.1, fun r e => rfl⟩

/-
Permanence of rejection and the missing-parent suspension protocol.
-/

theorem rejected_mono {r : Room} (f : Event) (h : Inv r) {i : Nat}
    (hi : i ∈ r.rejected) : i ∈ (process r f).1.rejected := by
  cases hc1 : containsKey eid f.event_id r.store with
  | true => rw [process_stored hc1]; exact hi
  | false =>
    by_cases hc2 : f.event_id ∈ r.rejected
    · rw [process_rejected_short hc1 hc2]; exact hi
    · cases hc3 : containsKey pendKey f.event_id r.pending with
      | true => rw [process_pending_short hc1 hc2 hc3]; exact hi
      | false =>
        by_cases hmiss : missingDeps r.store f = []
        · obtain ⟨st, hst, -⟩ := stateAtFrontier_total h.1.1
            (fun i2 hi2 => missingDeps_nil_iff.1 hmiss i2 (List.mem_append_left _ hi2))
          cases hauth : is_authorized f st with
          | true =>
            rw [process_fresh_accept hc1 hc2 hc3 hmiss hst hauth]
            have hcore := invCore_accept h.1 hc1 hc2 hc3 hmiss
            obtain ⟨-, -, -, c4, -⟩ := saturate_spec _ _ hcore (le_refl _)
            exact c4 i hi
          | false =>
            rw [process_fresh_reject hc1 hc2 hc3 hmiss hst hauth]
            exact mem_insNat.2 (Or.inr hi)
        · rw [process_fresh_suspend hc1 hc2 hc3 hmiss]
          exact hi

theorem rejected_stays_foldl : ∀ (l : List Event) (r : Room), Inv r →
    ∀ i ∈ r.rejected,
    i ∈ (l.foldl (fun r2 f => (process r2 f).1) r).rejected := by
  intro l
  induction l with
  | nil => exact fun r h i hi => hi
  | cons f l ih =>
    intro r h i hi
    exact ih _ (inv_process f h) i (rejected_mono f h hi)

theorem get_resolved_state_range {r : Room} (h : Inv r) {out : StateSnapshot}
    (hout : get_resolved_state r = some out) : ∀ v ∈ out, v ∈ r.store := by
  unfold get_resolved_state at hout
  have hfr : ∀ i ∈ r.extremities, containsKey eid i r.store = true := by
    intro i hi
    rw [h.1.2.2.2.2.1] at hi
    obtain ⟨⟨g, hg, rfl⟩, -⟩ := mem_zeroChildren.1 hi
    exact containsKey_of_mem hg
  obtain ⟨out2, heq, hrange⟩ := stateAtFrontier_total h.1.1 hfr
  rw [hout] at heq
  cases Option.some.inj heq
  exact hrange

theorem pending_conserved {r : Room} (f : Event) (h : Inv r)
    {q : Event × Nat} (hq : q ∈ r.pending) :
    q ∈ (process r f).1.pending ∨
    containsKey eid q.1.event_id (process r f).1.store = true ∨
    q.1.event_id ∈ (process r f).1.rejected := by
  cases hc1 : containsKey eid f.event_id r.store with
  | true => rw [process_stored hc1]; exact Or.inl hq
  | false =>
    by_cases hc2 : f.event_id ∈ r.rejected
    · rw [process_rejected_short hc1 hc2]; exact Or.inl hq
    · cases hc3 : containsKey pendKey f.event_id r.pending with
      | true => rw [process_pending_short hc1 hc2 hc3]; exact Or.inl hq
      | false =>
        by_cases hmiss : missingDeps r.store f = []
        · obtain ⟨st, hst, -⟩ := stateAtFrontier_total h.1.1
            (fun i2 hi2 => missingDeps_nil_iff.1 hmiss i2 (List.mem_append_left _ hi2))
          cases hauth : is_authorized f st with
          | true =>
            rw [process_fresh_accept hc1 hc2 hc3 hmiss hst hauth]
            have hcore := invCore_accept h.1 hc1 hc2 hc3 hmiss
            obtain ⟨-, -, -, -, -, c6, -⟩ := saturate_spec _ _ hcore (le_refl _)
            exact c6 q hq
          | false =>
            rw [process_fresh_reject hc1 hc2 hc3 hmiss hst hauth]
            exact Or.inl hq
        · rw [process_fresh_suspend hc1 hc2 hc3 hmiss]
          refine Or.inl (mem_insKey_of_mem hq ?_)
          exact containsKey_false hc3 q hq

theorem pending_rejected_auth {r : Room} (f : Event) (h : Inv r)
    {q : Event × Nat} (hq : q ∈ r.pending)
    (hrej : q.1.event_id ∈ (process r f).1.rejected) :
    ∀ stq, stateAtFrontier (process r f).1.store q.1.prev_events = some stq →
      is_authorized q.1 stq = false := by
  have hqnr : q.1.event_id ∉ r.rejected := (h.1.2.2.2.2.2.2 q hq).2
  cases hc1 : containsKey eid f.event_id r.store with
  | true =>
    rw [process_stored hc1] at hrej ⊢
    exact absurd hrej hqnr
  | false =>
    by_cases hc2 : f.event_id ∈ r.rejected
    · rw [process_rejected_short hc1 hc2] at hrej ⊢
      exact absurd hrej hqnr
    · cases hc3 : containsKey pendKey f.event_id r.pending with
      | true =>
        rw [process_pending_short hc1 hc2 hc3] at hrej ⊢
        exact absurd hrej hqnr
      | false =>
        by_cases hmiss : missingDeps r.store f = []
        · obtain ⟨st, hst, -⟩ := stateAtFrontier_total h.1.1
            (fun i2 hi2 => missingDeps_nil_iff.1 hmiss i2 (List.mem_append_left _ hi2))
          cases hauth : is_authorized f st with
          | true =>
            rw [process_fresh_accept hc1 hc2 hc3 hmiss hst hauth] at hrej ⊢
            have hcore := invCore_accept h.1 hc1 hc2 hc3 hmiss
            obtain ⟨-, -, -, -, -, -, -, c8⟩ := saturate_spec _ _ hcore (le_refl _)
            rcases c8 q hq hrej with hql | hqa
            · exact absurd hql hqnr
            · exact hqa
          | false =>
            rw [process_fresh_reject hc1 hc2 hc3 hmiss hst hauth] at hrej ⊢
            rcases mem_insNat.1 hrej with hqe | hql
            · exact absurd hqe (containsKey_false hc3 q hq)
            · exact absurd hql hqnr
        · rw [process_fresh_suspend hc1 hc2 hc3 hmiss] at hrej ⊢
          exact absurd hrej hqnr

/-- C8: an event failing authorization against its resolved pre-state is
permanently rejected: after any further delivery sequence it is still
rejected, absent from the store (the timeline), absent from every
resolved snapshot, and re-submitting it short-circuits to the recorded
rejection. -/
theorem unauthorized_never_in_state (r : Room) (e : Event) (st : StateSnapshot)
    (h : Inv r)
    (h1 : containsKey eid e.event_id r.store = false)
    (h2 : e.event_id ∉ r.rejected)
    (h3 : containsKey pendKey e.event_id r.pending = false)
    (hmiss : missingDeps r.store e = [])
    (hst : stateAtFrontier r.store e.prev_events = some st)
    (hauth : is_authorized e st = false) :
    process r e = ({ r with rejected := insKey (fun n => n) e.event_id r.rejected },
      Outcome.rejected RejectReason.unauthorized) ∧
    ∀ (l : List Event),
      e.event_id ∈ (l.foldl (fun r2 f => (process r2 f).1) (process r e).1).rejected ∧
      containsKey eid e.event_id
        (l.foldl (fun r2 f => (process r2 f).1) (process r e).1).store = false ∧
      (∀ out, get_resolved_state
          (l.foldl (fun r2 f => (process r2 f).1) (process r e).1) = some out →
        ∀ v ∈ out, v.event_id ≠ e.event_id) ∧
      process (l.foldl (fun r2 f => (process r2 f).1) (process r e).1) e =
        (l.foldl (fun r2 f => (process r2 f).1) (process r e).1,
          Outcome.alreadyRejected) := by
  have heq := process_fresh_reject h1 h2 h3 hmiss hst hauth
  refine ⟨heq, ?_⟩
  intro l
  have hbase : Inv (process r e).1 := inv_process e h
  have hbaserej : e.event_id ∈ (process r e).1.rejected := by
    rw [heq]
    exact mem_insNat.2 (Or.inl rfl)
  have hfold : Inv (l.foldl (fun r2 f => (process r2 f).1) (process r e).1) :=
    inv_foldProcess l _ hbase
  have hrej : e.event_id ∈
      (l.foldl (fun r2 f => (process r2 f).1) (process r e).1).rejected :=
    rejected_stays_foldl l _ hbase _ hbaserej
  have hnost : containsKey eid e.event_id
      (l.foldl (fun r2 f => (process r2 f).1) (process r e).1).store = false :=
    hfold.1.2.2.2.2.2.1 _ hrej
  refine ⟨hrej, hnost, ?_, process_rejected_short hnost hrej⟩
  intro out hout v hv hve
  have hvst := get_resolved_state_range hfold hout v hv
  have hck := @containsKey_of_mem Event eid _ _ hvst
  rw [show eid v = e.event_id from hve, hnost] at hck
  cases hck

/-- C9: an event with a missing parent is suspended, not rejected — the
graph is left unchanged and `MissingParent` identifies the absent
parent; once a delivery makes all its dependencies stored, the
suspended event leaves the pending set and completes ingestion (stored
when its pre-state authorizes it) without being re-submitted; and only
budget exhaustion (an expiry round on a zero-budget entry) turns a
suspended event into a permanent Unresolvable rejection. -/
theorem missing_parent_suspension (r : Room) (e f : Event) (h : Inv r) :
    (∀ (h1 : containsKey eid e.event_id r.store = false)
       (h2 : e.event_id ∉ r.rejected)
       (h3 : containsKey pendKey e.event_id r.pending = false)
       (hmiss : missingDeps r.store e ≠ []),
      process r e = ({ r with pending := insKey pendKey (e, RETRY_BUDGET) r.pending },
        Outcome.suspended (missingDeps r.store e)) ∧
      (∀ p ∈ e.prev_events, containsKey eid p r.store = false →
        p ∈ missingDeps r.store e)) ∧
    (∀ b, ((e, b) : Event × Nat) ∈ r.pending →
      missingDeps (process r f).1.store e = [] →
      ((e, b) : Event × Nat) ∉ (process r f).1.pending ∧
      (containsKey eid e.event_id (process r f).1.store = true ∨
        e.event_id ∈ (process r f).1.rejected) ∧
      (∀ stq, stateAtFrontier (process r f).1.store e.prev_events = some stq →
        is_authorized e stq = true →
        containsKey eid e.event_id (process r f).1.store = true)) ∧
    (∀ p ∈ r.pending, (p : Event × Nat).2 = 0 →
      p.1.event_id ∈ (expire r).1.rejected ∧ p.1.event_id ∈ (expire r).2) := by
  refine ⟨?_, ?_, ?_⟩
  · intro h1 h2 h3 hmiss
    refine ⟨process_fresh_suspend h1 h2 h3 hmiss, ?_⟩
    intro p hp hnc
    unfold missingDeps
    refine List.mem_filter.2 ⟨List.mem_append_left _ hp, ?_⟩
    simp [hnc]
  · intro b hq hdeps
    have hInv2 : Inv (process r f).1 := inv_process f h
    have hnotpend : ((e, b) : Event × Nat) ∉ (process r f).1.pending := by
      intro hpend
      exact hInv2.2 _ hpend hdeps
    have hcons := pending_conserved f h hq
    rcases hcons with hpend | hrest
    · exact absurd hpend hnotpend
    · refine ⟨hnotpend, hrest, ?_⟩
      intro stq hstq hok
      rcases hrest with hstored | hrej
      · exact hstored
      · have := pending_rejected_auth f h hq hrej stq hstq
        rw [hok] at this
        cases this
  · intro p hp hzero
    have hdead : p ∈ r.pending.filter (fun q => q.2 = 0) :=
      List.mem_filter.2 ⟨hp, by simp [hzero]⟩
    constructor
    · show p.1.event_id ∈ (r.pending.filter (fun q => q.2 = 0)).foldl
        (fun acc q => insKey (fun n => n) q.1.event_id acc) r.rejected
      rw [mem_nat_iff_containsKey]
      exact (@containsKey_foldl_insKey Nat (fun n => n) (Event × Nat)
        (fun q => q.1.event_id) _ _ _).2 (Or.inl ⟨p, hdead, rfl⟩)
    · show p.1.event_id ∈ (r.pending.filter (fun q => q.2 = 0)).map
        (fun q => q.1.event_id)
      exact List.mem_map.2 ⟨p, hdead, rfl⟩

theorem inv_expire {r : Room} (h : Inv r) : Inv (expire r).1 := by
  obtain ⟨⟨hok, hext, hrej, hpend, hzero, hrdis, hpdis⟩, hsat⟩ := h
  have hrejmem : ∀ i ∈ (expire r).1.rejected,
      (∃ q ∈ r.pending.filter (fun q2 => q2.2 = 0), q.1.event_id = i) ∨
      i ∈ r.rejected := by
    intro i hi
    rw [mem_nat_iff_containsKey] at hi
    have := (@containsKey_foldl_insKey Nat (fun n => n) (Event × Nat)
      (fun q => q.1.event_id) _ _ _).1 hi
    rcases this with h2 | h2
    · exact Or.inl h2
    · exact Or.inr (mem_nat_iff_containsKey.2 h2)
  have hpendmem : ∀ p ∈ (expire r).1.pending,
      ∃ q ∈ r.pending.filter (fun q2 => q2.2 ≠ 0), p = (q.1, q.2 - 1) := by
    intro p hp
    obtain ⟨q, hq, hqp⟩ := List.mem_map.1 hp
    exact ⟨q, hq, hqp.symm⟩
  refine ⟨⟨hok, hext, ?_, ?_, hzero, ?_, ?_⟩, ?_⟩
  · exact @sortedK_foldl_insKey Nat (fun n => n) (Event × Nat)
      (fun q => q.1.event_id) _ _ hrej
  · show SortedK pendKey ((r.pending.filter (fun q2 => q2.2 ≠ 0)).map
      (fun q => (q.1, q.2 - 1)))
    unfold SortedK
    rw [List.pairwise_map]
    exact List.Pairwise.filter _ hpend
  · intro i hi
    rcases hrejmem i hi with ⟨q, hq, rfl⟩ | hi2
    · exact (hpdis q (List.mem_filter.1 hq).1).1
    · exact hrdis i hi2
  · intro p hp
    obtain ⟨q, hq, rfl⟩ := hpendmem p hp
    have hqmem := (List.mem_filter.1 hq).1
    refine ⟨(hpdis q hqmem).1, ?_⟩
    intro hcon
    rcases hrejmem _ hcon with ⟨d, hd, hdq⟩ | hcon2
    · have hdmem := (List.mem_filter.1 hd).1
      have hdz : d.2 = 0 := by simpa using (List.mem_filter.1 hd).2
      have hqnz : q.2 ≠ 0 := by simpa using (List.mem_filter.1 hq).2
      have : d = q := sortedK_inj hpend hdmem hqmem hdq
      rw [this] at hdz
      exact hqnz hdz
    · exact (hpdis q hqmem).2 hcon2
  · intro p hp
    obtain ⟨q, hq, rfl⟩ := hpendmem p hp
    exact hsat q (List.mem_filter.1 hq).1

/-- C8 witness: the unauthorized event F is rejected after A, B and
stays out of the rejected room's store even after delivering C. -/
theorem unauthorized_never_in_state_witness :
    process roomW8 evF = ({ roomW8 with rejected := insKey (fun n => n) evF.event_id roomW8.rejected }, Outcome.rejected RejectReason.unauthorized) ∧
    evF.event_id ∈ ([evC].foldl (fun r2 f => (process r2 f).1) (process roomW8 evF).1).rejected ∧
    containsKey eid evF.event_id
      ([evC].foldl (fun r2 f => (process r2 f).1) (process roomW8 evF).1).store = false := by
  have main := unauthorized_never_in_state roomW8 evF stW8 (inv_ingestAll [evA, evB])
    (by decide) (by decide) (by decide) (by decide) (by decide) (by decide)
  exact ⟨main.1, (main.2 [evC]).1, (main.2 [evC]).2.1⟩

/-- C9 witness: delivering C before its parent B suspends it; when B
arrives, C completes ingestion into the store without re-submission;
and after its retry budget is exhausted an expiry round permanently
rejects it. -/
theorem missing_parent_suspension_witness :
    process (ingestAll [evA]) evC = ({ ingestAll [evA] with pending := insKey pendKey (evC, RETRY_BUDGET) (ingestAll [evA]).pending }, Outcome.suspended (missingDeps (ingestAll [evA]).store evC)) ∧
    ((evC, RETRY_BUDGET) : Event × Nat) ∉ (process roomW9 evB).1.pending ∧
    containsKey eid evC.event_id (process roomW9 evB).1.store = true ∧
    evC.event_id ∈ (expire roomW9c).1.rejected := by
  have mainA := (missing_parent_suspension (ingestAll [evA]) evC evB
    (inv_ingestAll [evA])).1 (by decide) (by decide) (by decide) (by decide)
  have hb := (missing_parent_suspension roomW9 evC evB
    (inv_ingestAll [evA, evC])).2.1 RETRY_BUDGET (by decide) (by decide)
  have hstored := hb.2.2 stW9 (by decide) (by decide)
  have hInv9c : Inv roomW9c :=
    inv_expire (inv_expire (inv_expire (inv_expire (inv_expire
      (inv_ingestAll [evA, evC])))))
  have hc := ((missing_parent_suspension roomW9c evC evB hInv9c).2.2
    (evC, 0) (by decide) rfl).1
  exact ⟨mainA.1, hb.1, hstored, hc⟩

/-
Determinism of causal delivery.  First: the pure store fold, its
acceptance decision, and commutation of causally independent steps.
-/

theorem accStep_eq (st : List Event) (e : Event) :
    accStep st e = if accDecide st e then insKey eid (withDepth st e) st else st := by
  cases hc : containsKey eid e.event_id st with
  | true => simp [accStep, accDecide, hc]
  | false =>
    cases hm : (missingDeps st e).isEmpty with
    | false => simp [accStep, accDecide, hc, hm]
    | true =>
      cases hst : stateAtFrontier st e.prev_events with
      | none => simp [accStep, accDecide, hc, hm, hst]
      | some s =>
        cases hauth : is_authorized e s <;>
          simp [accStep, accDecide, hc, hm, hst, hauth]

theorem accDecide_stored (st : List Event) (e : Event)
    (hd : accDecide st e = true) : containsKey eid e.event_id st = false := by
  unfold accDecide at hd
  simp only [Bool.and_eq_true, Bool.not_eq_true'] at hd
  exact hd.1.1

theorem accDecide_deps (st : List Event) (e : Event)
    (hd : accDecide st e = true) : missingDeps st e = [] := by
  unfold accDecide at hd
  simp only [Bool.and_eq_true] at hd
  exact List.isEmpty_iff.1 hd.1.2

theorem storeOK_accStep {st : List Event} (e : Event) (hOK : StoreOK st) :
    StoreOK (accStep st e) := by
  rw [accStep_eq]
  split_ifs with hd
  · exact storeOK_insert hOK (accDecide_stored st e hd)
      (missingDeps_nil_iff.1 (accDecide_deps st e hd))
  · exact hOK

theorem lookupEv_accStep {st : List Event} {a : Event} {k : Nat}
    (hk : k ≠ a.event_id) : lookupEv (accStep st a) k = lookupEv st k := by
  rw [accStep_eq]
  split_ifs with hd
  · show lookupKey eid k (insKey eid (withDepth st a) st) = _
    rw [lookupKey_insKey_ne (by exact hk)]
    rfl
  · rfl

theorem containsKey_accStep {st : List Event} {a : Event} {k : Nat}
    (hk : k ≠ a.event_id) :
    containsKey eid k (accStep st a) = containsKey eid k st := by
  rw [containsKey, ← lookupEv, lookupEv_accStep hk]
  rfl

theorem lookup_preserve_accStep {st : List Event} (a : Event) :
    ∀ i, containsKey eid i st = true → lookupEv (accStep st a) i = lookupEv st i := by
  intro i hi
  rw [accStep_eq]
  split_ifs with hd
  · have hne : i ≠ a.event_id := by
      intro hia
      rw [hia, accDecide_stored st a hd] at hi
      cases hi
    show lookupKey eid i (insKey eid (withDepth st a) st) = _
    rw [lookupKey_insKey_ne (by exact hne)]
    rfl
  · rfl

theorem missingDeps_accStep {st : List Event} {a b : Event}
    (hd : a.event_id ∉ deps b) :
    missingDeps (accStep st a) b = missingDeps st b := by
  unfold missingDeps
  refine List.filter_congr ?_
  intro i hi
  have hne : i ≠ a.event_id := fun hia => hd (hia ▸ hi)
  rw [containsKey_accStep hne]

theorem withDepth_accStep {st : List Event} {a b : Event}
    (hd : a.event_id ∉ deps b) :
    withDepth (accStep st a) b = withDepth st b := by
  unfold withDepth
  have hmap : ∀ L : List Nat, (∀ i ∈ L, i ≠ a.event_id) →
      L.filterMap (fun i => lookupEv (accStep st a) i) =
      L.filterMap (fun i => lookupEv st i) := by
    intro L hL
    induction L with
    | nil => rfl
    | cons i l ih =>
      have hne : i ≠ a.event_id := hL i (List.mem_cons_self i l)
      have ih2 := ih (fun j hj => hL j (List.mem_cons_of_mem _ hj))
      simp only [List.filterMap_cons, lookupEv_accStep hne]
      cases lookupEv st i <;> rw [ih2]
  rw [hmap b.prev_events
    (fun i hi hia => hd (hia ▸ List.mem_append_left _ hi))]

theorem stateAtFrontier_accStep {st : List Event} {a b : Event}
    (hOK : StoreOK st) (hprev : ∀ i ∈ b.prev_events, containsKey eid i st = true) :
    stateAtFrontier (accStep st a) b.prev_events = stateAtFrontier st b.prev_events :=
  stateAtFrontier_ext hOK (storeOK_accStep a hOK) (lookup_preserve_accStep a) hprev

theorem accDecide_accStep {st : List Event} {a b : Event} (hOK : StoreOK st)
    (hne : b.event_id ≠ a.event_id) (hd : a.event_id ∉ deps b) :
    accDecide (accStep st a) b = accDecide st b := by
  unfold accDecide
  rw [containsKey_accStep hne, missingDeps_accStep hd]
  cases hm : (missingDeps st b).isEmpty with
  | false => simp
  | true =>
    have hprev : ∀ i ∈ b.prev_events, containsKey eid i st = true := by
      intro i hi
      exact missingDeps_nil_iff.1 (List.isEmpty_iff.1 hm) i (List.mem_append_left _ hi)
    rw [stateAtFrontier_accStep hOK hprev]

theorem accStep_comm {st : List Event} {a b : Event} (hOK : StoreOK st)
    (hab : a.event_id ≠ b.event_id)
    (hda : a.event_id ∉ deps b) (hdb : b.event_id ∉ deps a) :
    accStep (accStep st a) b = accStep (accStep st b) a := by
  have ea := accDecide_accStep hOK hab.symm hda
  have eb := accDecide_accStep hOK hab hdb
  cases hxa : accDecide st a with
  | false =>
    have hnoa : accStep st a = st := by rw [accStep_eq, hxa]; rfl
    cases hxb : accDecide st b with
    | false =>
      have hnob : accStep st b = st := by rw [accStep_eq, hxb]; rfl
      rw [hnoa, hnob]
      exact hnoa.symm
    | true =>
      rw [hnoa]
      rw [accStep_eq (accStep st b) a, eb, hxa]
      rfl
  | true =>
    cases hxb : accDecide st b with
    | false =>
      have hnob : accStep st b = st := by rw [accStep_eq, hxb]; rfl
      rw [hnob]
      rw [accStep_eq (accStep st a) b, ea, hxb]
      rfl
    | true =>
      rw [accStep_eq (accStep st a) b, ea, hxb, if_pos rfl,
        accStep_eq (accStep st b) a, eb, hxa, if_pos rfl,
        withDepth_accStep hda, withDepth_accStep hdb,
        accStep_eq st a, hxa, if_pos rfl, accStep_eq st b, hxb, if_pos rfl]
      exact (insKey_comm (by exact hab) hOK.1).symm

/-
Second: the combinatorics of causally ordered lists (seen sets,
splitting, freshness and dependency localisation).
-/

theorem causal_cons {e : Event} {l : List Event} {seen : List Nat} :
    Causal seen (e :: l) ↔ (∀ i ∈ deps e, i ∈ seen) ∧ e.event_id ∉ seen ∧
      Causal (e.event_id :: seen) l := Iff.rfl

theorem mem_seenAfter : ∀ (l : List Event) (seen : List Nat) (i : Nat),
    i ∈ seenAfter seen l ↔ i ∈ seen ∨ ∃ f ∈ l, f.event_id = i := by
  intro l
  induction l with
  | nil => intro seen i; simp [seenAfter]
  | cons e l ih =>
    intro seen i
    rw [seenAfter, ih]
    constructor
    · rintro (hi | ⟨f, hf1, hf2⟩)
      · rcases List.mem_cons.1 hi with rfl | hi
        · exact Or.inr ⟨e, List.mem_cons_self e l, rfl⟩
        · exact Or.inl hi
      · exact Or.inr ⟨f, List.mem_cons_of_mem _ hf1, hf2⟩
    · rintro (hi | ⟨f, hf1, hf2⟩)
      · exact Or.inl (List.mem_cons_of_mem _ hi)
      · rcases List.mem_cons.1 hf1 with rfl | hf1
        · exact Or.inl (hf2 ▸ List.mem_cons_self f.event_id seen)
        · exact Or.inr ⟨f, hf1, hf2⟩

theorem causal_congr : ∀ (l : List Event) (s1 s2 : List Nat),
    (∀ i, i ∈ s1 ↔ i ∈ s2) → Causal s1 l → Causal s2 l := by
  intro l
  induction l with
  | nil => intro s1 s2 _ _; trivial
  | cons e l ih =>
    intro s1 s2 h hc
    obtain ⟨h1, h2, h3⟩ := causal_cons.1 hc
    refine causal_cons.2 ⟨fun i hi => (h i).1 (h1 i hi), fun hx => h2 ((h _).2 hx), ?_⟩
    refine ih _ _ ?_ h3
    intro i
    simp only [List.mem_cons]
    exact or_congr Iff.rfl (h i)

theorem causal_append : ∀ (p q : List Event) (seen : List Nat),
    Causal seen (p ++ q) ↔ Causal seen p ∧ Causal (seenAfter seen p) q := by
  intro p
  induction p with
  | nil =>
    intro q seen
    show Causal seen q ↔ True ∧ Causal seen q
    exact (true_and_iff _).symm
  | cons e p ih =>
    intro q seen
    show Causal seen (e :: (p ++ q)) ↔ _
    rw [causal_cons, causal_cons, ih]
    constructor
    · rintro ⟨h1, h2, h3, h4⟩
      exact ⟨⟨h1, h2, h3⟩, h4⟩
    · rintro ⟨⟨h1, h2, h3⟩, h4⟩
      exact ⟨h1, h2, h3, h4⟩

theorem causal_fresh : ∀ (l : List Event) (seen : List Nat), Causal seen l →
    ∀ f ∈ l, f.event_id ∉ seen := by
  intro l
  induction l with
  | nil => intro seen _ f hf; cases hf
  | cons e l ih =>
    intro seen hc f hf
    obtain ⟨-, h2, h3⟩ := causal_cons.1 hc
    rcases List.mem_cons.1 hf with rfl | hf
    · exact h2
    · exact fun hmem => ih _ h3 f hf (List.mem_cons_of_mem _ hmem)

theorem causal_deps_seenAfter : ∀ (l : List Event) (seen : List Nat),
    Causal seen l → ∀ f ∈ l, ∀ i ∈ deps f, i ∈ seenAfter seen l := by
  intro l
  induction l with
  | nil => intro seen _ f hf; cases hf
  | cons e l ih =>
    intro seen hc f hf i hi
    obtain ⟨h1, -, h3⟩ := causal_cons.1 hc
    show i ∈ seenAfter (e.event_id :: seen) l
    rcases List.mem_cons.1 hf with rfl | hf
    · exact (mem_seenAfter _ _ _).2
        (Or.inl (List.mem_cons_of_mem _ (h1 i hi)))
    · exact ih _ h3 f hf i hi

theorem causal_cons_seen : ∀ (l : List Event) (seen : List Nat) (x : Nat),
    Causal seen l → (∀ f ∈ l, f.event_id ≠ x) → Causal (x :: seen) l := by
  intro l
  induction l with
  | nil => intro seen x _ _; trivial
  | cons e l ih =>
    intro seen x hc hx
    obtain ⟨h1, h2, h3⟩ := causal_cons.1 hc
    refine causal_cons.2 ⟨fun i hi => List.mem_cons_of_mem _ (h1 i hi), ?_, ?_⟩
    · intro hmem
      rcases List.mem_cons.1 hmem with he | he
      · exact hx e (List.mem_cons_self e l) he
      · exact h2 he
    · refine causal_congr l (x :: e.event_id :: seen) (e.event_id :: x :: seen) ?_
        (ih _ _ h3 (fun f hf => hx f (List.mem_cons_of_mem _ hf)))
      intro i
      simp only [List.mem_cons]
      tauto

/-
Third: order independence of the pure store fold over causally ordered
permutations.
-/

theorem storeOK_foldAcc : ∀ (l : List Event) (st : List Event), StoreOK st →
    StoreOK (List.foldl accStep st l) := by
  intro l
  induction l with
  | nil => exact fun st h => h
  | cons e l ih => exact fun st h => ih _ (storeOK_accStep e h)

theorem accStep_bubble (e : Event) : ∀ (p : List Event) (st : List Event),
    StoreOK st →
    (∀ f ∈ p, e.event_id ≠ f.event_id ∧ e.event_id ∉ deps f ∧
      f.event_id ∉ deps e) →
    List.foldl accStep (accStep st e) p = accStep (List.foldl accStep st p) e := by
  intro p
  induction p with
  | nil => intro st _ _; rfl
  | cons f p ih =>
    intro st hOK hcond
    obtain ⟨h1, h2, h3⟩ := hcond f (List.mem_cons_self f p)
    show List.foldl accStep (accStep (accStep st e) f) p = _
    rw [accStep_comm hOK h1 h2 h3]
    exact ih _ (storeOK_accStep f hOK)
      (fun g hg => hcond g (List.mem_cons_of_mem _ hg))

theorem accFold_perm : ∀ (l1 l2 : List Event) (seen : List Nat)
    (st : List Event), StoreOK st → Causal seen l1 → Causal seen l2 →
    l1.Perm l2 → List.foldl accStep st l1 = List.foldl accStep st l2 := by
  intro l1
  induction l1 with
  | nil =>
    intro l2 seen st _ _ _ hp
    rw [hp.symm.eq_nil]
  | cons e l1 ih =>
    intro l2 seen st hOK hc1 hc2 hp
    obtain ⟨hdepsE, hfreshE, hc1'⟩ := causal_cons.1 hc1
    have he2 : e ∈ l2 := hp.mem_iff.1 (List.mem_cons_self e l1)
    obtain ⟨p, t, rfl⟩ := List.append_of_mem he2
    obtain ⟨hcp, hct⟩ := (causal_append p (e :: t) seen).1 hc2
    obtain ⟨-, hctf, hct'⟩ := causal_cons.1 hct
    have hids : ∀ f ∈ p, e.event_id ≠ f.event_id := by
      intro f hf he
      exact hctf ((mem_seenAfter _ _ _).2 (Or.inr ⟨f, hf, he.symm⟩))
    have hconds : ∀ f ∈ p, e.event_id ≠ f.event_id ∧ e.event_id ∉ deps f ∧
        f.event_id ∉ deps e := by
      intro f hf
      refine ⟨hids f hf, ?_, ?_⟩
      · exact fun hmem => hctf (causal_deps_seenAfter p seen hcp f hf _ hmem)
      · exact fun hmem => causal_fresh p seen hcp f hf (hdepsE _ hmem)
    have hct2 : Causal (e.event_id :: seen) (p ++ t) := by
      refine (causal_append p t _).2
        ⟨causal_cons_seen p seen e.event_id hcp
          (fun f hf => fun hfe => hids f hf hfe.symm), ?_⟩
      refine causal_congr t (e.event_id :: seenAfter seen p)
        (seenAfter (e.event_id :: seen) p) ?_ hct'
      intro i
      rw [List.mem_cons, mem_seenAfter, mem_seenAfter, List.mem_cons]
      tauto
    have hperm2 : l1.Perm (p ++ t) :=
      (List.perm_cons e).1 (hp.trans List.perm_middle)
    show List.foldl accStep (accStep st e) l1 = _
    rw [ih (p ++ t) (e.event_id :: seen) (accStep st e)
      (storeOK_accStep e hOK) hc1' hct2 hperm2]
    rw [List.foldl_append, List.foldl_append]
    show _ = List.foldl accStep (accStep (List.foldl accStep st p) e) t
    rw [accStep_bubble e p st hOK hconds]

/-
Fourth: under causal delivery the pipeline's store effect coincides with
the pure fold (re-receipt, rejection short-circuits and resumption never
fire on fresh causal input).
-/

theorem containsKey_insKey_ne {β : Type} {key : β → Nat} {x : β} {l : List β}
    {k : Nat} (hk : k ≠ key x) :
    containsKey key k (insKey key x l) = containsKey key k l := by
  unfold containsKey
  rw [lookupKey_insKey_ne hk]

theorem missingDeps_insert_ne {st : List Event} {x : Event} {e : Event}
    (h : x.event_id ∉ deps e) :
    missingDeps (insKey eid x st) e = missingDeps st e := by
  unfold missingDeps
  refine List.filter_congr ?_
  intro i hi
  have hne : i ≠ eid x := by
    intro c
    rw [c] at hi
    exact h hi
  rw [containsKey_insKey_ne hne]

theorem bridge_step {r : Room} {e : Event} {seen : List Nat}
    (hInv : Inv r)
    (hS : ∀ i, containsKey eid i r.store = true ∨ i ∈ r.rejected ∨
      containsKey pendKey i r.pending = true → i ∈ seen)
    (hD : ∀ p ∈ r.pending, ∀ d ∈ deps p.1, d ∈ seen)
    (hdeps : ∀ i ∈ deps e, i ∈ seen) (hfresh : e.event_id ∉ seen) :
    (process r e).1.store = accStep r.store e ∧
    (∀ i, containsKey eid i (process r e).1.store = true ∨
        i ∈ (process r e).1.rejected ∨
        containsKey pendKey i (process r e).1.pending = true →
      i ∈ e.event_id :: seen) ∧
    (∀ p ∈ (process r e).1.pending, ∀ d ∈ deps p.1,
      d ∈ e.event_id :: seen) := by
  have hc1 : containsKey eid e.event_id r.store = false := by
    cases hc : containsKey eid e.event_id r.store with
    | false => rfl
    | true => exact absurd (hS _ (Or.inl hc)) hfresh
  have hc2 : e.event_id ∉ r.rejected :=
    fun h => hfresh (hS _ (Or.inr (Or.inl h)))
  have hc3 : containsKey pendKey e.event_id r.pending = false := by
    cases hc : containsKey pendKey e.event_id r.pending with
    | false => rfl
    | true => exact absurd (hS _ (Or.inr (Or.inr hc))) hfresh
  by_cases hmiss : missingDeps r.store e = []
  · obtain ⟨st0, hst0, -⟩ := stateAtFrontier_total hInv.1.1
      (fun i hi => missingDeps_nil_iff.1 hmiss i (List.mem_append_left _ hi))
    cases hauth : is_authorized e st0 with
    | false =>
      rw [process_fresh_reject hc1 hc2 hc3 hmiss hst0 hauth]
      have hdec : accDecide r.store e = false := by
        simp [accDecide, hc1, hmiss, hst0, hauth]
      refine ⟨?_, ?_, ?_⟩
      · rw [accStep_eq, hdec]
        rfl
      · intro i hi
        rcases hi with hi | hi | hi
        · exact List.mem_cons_of_mem _ (hS i (Or.inl hi))
        · rcases mem_insNat.1 hi with rfl | hi
          · exact List.mem_cons_self _ _
          · exact List.mem_cons_of_mem _ (hS i (Or.inr (Or.inl hi)))
        · exact List.mem_cons_of_mem _ (hS i (Or.inr (Or.inr hi)))
      · intro p hp d hd
        exact List.mem_cons_of_mem _ (hD p hp d hd)
    | true =>
      rw [process_fresh_accept hc1 hc2 hc3 hmiss hst0 hauth]
      have hfind : (acceptRoom r e).pending.find?
          (fun p => (missingDeps (acceptRoom r e).store p.1).isEmpty) = none := by
        rw [List.find?_eq_none]
        intro p hp
        have hp' : p ∈ r.pending := hp
        have hkeep : missingDeps (acceptRoom r e).store p.1 =
            missingDeps r.store p.1 :=
          missingDeps_insert_ne (fun hmem => hfresh (hD p hp' _ hmem))
        simp only [hkeep, List.isEmpty_iff]
        exact hInv.2 p hp'
      rw [saturate_noop hfind]
      have hdec : accDecide r.store e = true := by
        simp [accDecide, hc1, hmiss, hst0, hauth]
      refine ⟨?_, ?_, ?_⟩
      · rw [accStep_eq, hdec]
        rfl
      · intro i hi
        rcases hi with hi | hi | hi
        · rcases containsKey_insKey.1 hi with hie | hi
          · subst hie
            exact List.mem_cons_self _ _
          · exact List.mem_cons_of_mem _ (hS i (Or.inl hi))
        · exact List.mem_cons_of_mem _ (hS i (Or.inr (Or.inl hi)))
        · exact List.mem_cons_of_mem _ (hS i (Or.inr (Or.inr hi)))
      · intro p hp d hd
        exact List.mem_cons_of_mem _ (hD p hp d hd)
  · rw [process_fresh_suspend hc1 hc2 hc3 hmiss]
    have hne : (missingDeps r.store e).isEmpty = false := by
      cases hh : (missingDeps r.store e).isEmpty with
      | false => rfl
      | true => exact absurd (List.isEmpty_iff.1 hh) hmiss
    have hdec : accDecide r.store e = false := by
      simp [accDecide, hc1, hne]
    refine ⟨?_, ?_, ?_⟩
    · rw [accStep_eq, hdec]
      rfl
    · intro i hi
      rcases hi with hi | hi | hi
      · exact List.mem_cons_of_mem _ (hS i (Or.inl hi))
      · exact List.mem_cons_of_mem _ (hS i (Or.inr (Or.inl hi)))
      · rcases containsKey_insKey.1 hi with hie | hi
        · subst hie
          exact List.mem_cons_self _ _
        · exact List.mem_cons_of_mem _ (hS i (Or.inr (Or.inr hi)))
    · intro p hp d hd
      rcases mem_insKey_weak hp with rfl | hp
      · exact List.mem_cons_of_mem _ (hdeps d hd)
      · exact List.mem_cons_of_mem _ (hD p hp d hd)

theorem bridge_fold : ∀ (l : List Event) (seen : List Nat) (r : Room),
    Causal seen l → Inv r →
    (∀ i, containsKey eid i r.store = true ∨ i ∈ r.rejected ∨
      containsKey pendKey i r.pending = true → i ∈ seen) →
    (∀ p ∈ r.pending, ∀ d ∈ deps p.1, d ∈ seen) →
    (l.foldl (fun r2 e => (process r2 e).1) r).store =
      List.foldl accStep r.store l := by
  intro l
  induction l with
  | nil => intro seen r _ _ _ _; rfl
  | cons e l ih =>
    intro seen r hc hInv hS hD
    obtain ⟨hd1, hf1, hc'⟩ := causal_cons.1 hc
    obtain ⟨hstore, hS', hD'⟩ := bridge_step hInv hS hD hd1 hf1
    show (l.foldl (fun r2 e => (process r2 e).1) (process r e).1).store =
      List.foldl accStep (accStep r.store e) l
    rw [ih (e.event_id :: seen) (process r e).1 hc' (inv_process e hInv)
      hS' hD', hstore]

theorem ingestAll_store_causal {l : List Event} (h : CausallyOrdered l) :
    (ingestAll l).store = accStore l := by
  refine bridge_fold l [] emptyRoom h inv_empty ?_ ?_
  · intro i hi
    rcases hi with hi | hi | hi
    · exact absurd hi (by simp [emptyRoom, containsKey, lookupKey])
    · exact absurd hi (by simp [emptyRoom])
    · exact absurd hi (by simp [emptyRoom, containsKey, lookupKey])
  · intro p hp
    exact absurd hp (by simp [emptyRoom])

/-- C1: delivery-order determinism.  Ingesting the same set of input
events in any two orders that both respect causal order (parents and
auth dependencies before children, fresh ids) yields an identical event
store and an identical final resolved state; and the Auth Checker is a
pure function of the `(event, state)` pair, so any two calls on the same
pair return the identical result. -/
theorem causal_delivery_deterministic (l1 l2 : List Event)
    (h1 : CausallyOrdered l1) (h2 : CausallyOrdered l2) (hp : l1.Perm l2) :
    (ingestAll l1).store = (ingestAll l2).store ∧
    get_resolved_state (ingestAll l1) = get_resolved_state (ingestAll l2) ∧
    ∀ (e : Event) (s : StateSnapshot), is_authorized e s = is_authorized e s := by
  have hOK : StoreOK ([] : List Event) := inv_empty.1.1
  have hstores : (ingestAll l1).store = (ingestAll l2).store := by
    rw [ingestAll_store_causal h1, ingestAll_store_causal h2]
    exact accFold_perm l1 l2 [] [] hOK h1 h2 hp
  refine ⟨hstores, ?_, fun e s => rfl⟩
  unfold get_resolved_state
  rw [(inv_ingestAll l1).1.2.2.2.2.1, (inv_ingestAll l2).1.2.2.2.2.1, hstores]

/-- Witness for the determinism property: the concrete five-event vector
of the spec — A (create), B (join), C (power levels), D and E
(conflicting same-slot state events) — delivered as `[A,B,C,D,E]` and as
`[A,B,C,E,D]`; both orders are causal, they are permutations of each
other, and the resolved snapshots coincide. -/
theorem causal_delivery_deterministic_witness :
    CausallyOrdered [evA, evB, evC, evD, evE] ∧
    CausallyOrdered [evA, evB, evC, evE, evD] ∧
    List.Perm [evA, evB, evC, evD, evE] [evA, evB, evC, evE, evD] ∧
    get_resolved_state (ingestAll [evA, evB, evC, evD, evE]) =
      get_resolved_state (ingestAll [evA, evB, evC, evE, evD]) := by
  have hco1 : CausallyOrdered [evA, evB, evC, evD, evE] :=
    ⟨by decide, by decide, by decide, by decide, by decide, by decide,
      by decide, by decide, by decide, by decide, trivial⟩
  have hco2 : CausallyOrdered [evA, evB, evC, evE, evD] :=
    ⟨by decide, by decide, by decide, by decide, by decide, by decide,
      by decide, by decide, by decide, by decide, trivial⟩
  have hperm : List.Perm [evA, evB, evC, evD, evE] [evA, evB, evC, evE, evD] :=
    .cons evA (.cons evB (.cons evC (List.Perm.swap evE evD [])))
  exact ⟨hco1, hco2, hperm,
    (causal_delivery_deterministic _ _ hco1 hco2 hperm).2.1⟩

end Engine

end Conduit
